import Mathlib

/-!
Verification of the datadirectory package (infomodels/datadirectory).

This file gives a shallow embedding, in Lean 4, of the metadata-ledger
logic of the datadirectory Go package: the strict CSV codec
(ReadMetadata / WriteMetadata), the catalog construction and version
resolution performed by New, the record validator (Validate), and the
directory scanner (PopulateMetadataFromData / populateRecord), together
with theorems about them.

Modelling conventions:
- Go map[string]string values are association lists with Go map
  get/set/len semantics (absent key reads as the empty string).
- Go map iteration, whose order is unspecified, is modelled as
  iteration over an association list in insertion order; every theorem
  below depends only on facts that are independent of iteration order.
- The strict csv.Reader configuration used by the package
  (LazyQuotes=false, TrimLeadingSpace=false, FieldsPerRecord inferred
  from the header row) is embedded as an explicit character-level
  scanner with the documented encoding/csv semantics: records separated
  by LF (a CRLF pair is normalized to LF), completely empty lines
  skipped, quoted fields with doubled quotes as escapes, a quote inside
  an unquoted field an error, data after a closing quote an error.
- Byte strings (file contents) are lists of natural numbers below 256;
  SHA-256 is implemented concretely over them.
- strings.ToLower is modelled by ASCII lowering (lowerStr); the inputs
  the package lower-cases are ASCII, where the two agree.
-/

namespace DataDir

/-! ## strings.ToLower

Go's strings.ToLower lower-cases the whole string; the inputs this
package lower-cases are ASCII, so it is modelled as ASCII lowering,
character by character. -/

/-- Lower-case one ASCII character. -/
def lowerChar (c : Char) : Char :=
  if 65 ≤ c.toNat ∧ c.toNat ≤ 90 then Char.ofNat (c.toNat + 32) else c

/-- strings.ToLower. -/
def lowerStr (s : String) : String :=
  String.mk (s.data.map lowerChar)

/-! ## Go map[string]string -/

/-- A Go map from string to string, as an association list in insertion
order. Reading an absent key yields the zero value, the empty string. -/
abbrev RecordMap := List (String × String)

/-- Go map read: the zero value for an absent key. -/
def rmGet (m : RecordMap) (k : String) : String :=
  (m.lookup k).getD ""

/-- Whether a key is present. -/
def rmHas (m : RecordMap) (k : String) : Bool :=
  (m.lookup k).isSome

/-- Go map write: overwrite in place when present, else insert. The
maps the package builds have distinct keys, for which replacing the
first occurrence is the Go map assignment. -/
def rmSet : RecordMap → String → String → RecordMap
  | [], k, v => [(k, v)]
  | (k1, v1) :: t, k, v =>
    if k1 = k then (k, v) :: t else (k1, v1) :: rmSet t k v

/-- Go len() of a map: the number of distinct keys. -/
def rmSize (m : RecordMap) : Nat :=
  (m.map Prod.fst).dedup.length

/-! ## Header tables (datadirectory.go) -/

/-- The default ordered header (canonicalHeader in datadirectory.go). -/
def canonicalHeader : List String :=
  ["organization", "filename", "checksum", "cdm", "cdm-version",
   "table", "etl", "data-version"]

/-- Permitted metadata header values and whether they are required
(headerReq in datadirectory.go); Go iterates this map in an
unspecified order, modelled here in canonical order. -/
def headerReq : List (String × Bool) :=
  [("organization", true), ("filename", true), ("checksum", true),
   ("cdm", true), ("cdm-version", false), ("table", true),
   ("etl", true), ("data-version", false)]

/-- The required header fields, in the modelled iteration order. -/
def requiredFields : List String :=
  (headerReq.filter (fun p => p.2)).map Prod.fst

/-! ## The strict CSV reader (encoding/csv with LazyQuotes=false,
TrimLeadingSpace=false) -/

/-- Errors of the csv.Reader relevant to this configuration. -/
inductive CsvErr where
  /-- a quote appears inside a non-quoted field -/
  | bareQuote : CsvErr
  /-- extraneous or missing quote in a quoted field -/
  | quoteErr : CsvErr
  /-- a record has a different number of fields than the header -/
  | fieldCount : CsvErr
deriving DecidableEq, Repr

/-- Scanner state: start of a line, start of a field after a comma,
inside an unquoted field, inside a quoted field, just after the
closing quote of a quoted field. -/
inductive CsvMode where
  | lineStart : CsvMode
  | fieldStart : CsvMode
  | bare : CsvMode
  | quoted : CsvMode
  | postQuote : CsvMode
deriving DecidableEq, Repr

/-- The CRLF normalization csv.Reader.readLine performs: every
carriage-return immediately followed by a line-feed is dropped; a lone
carriage-return is data. -/
def normCRLF : List Char → List Char
  | [] => []
  | '\r' :: '\n' :: cs => '\n' :: normCRLF cs
  | c :: cs => c :: normCRLF cs

/-- Character-level CSV scanner over CRLF-normalized input. `cur`
holds the characters of the field being read, `rc` the fields of the
record being read. Returns the complete records read, in order, and
the error that stopped the scan, if any (records read before the error
are still returned, which mirrors the incremental csv.Reader.Read loop
of the Go code). -/
def csvScanAux (m : CsvMode) (cur : List Char) (rc : List String) :
    List Char → List (List String) × Option CsvErr
  | [] =>
    match m with
    | .lineStart => ([], none)
    | .fieldStart => ([rc ++ [""]], none)
    | .bare => ([rc ++ [String.mk cur]], none)
    | .quoted => ([], some .quoteErr)
    | .postQuote => ([rc ++ [String.mk cur]], none)
  | c :: cs =>
    match m with
    | .lineStart =>
      if c = '\n' then csvScanAux .lineStart [] [] cs
      else if c = '"' then csvScanAux .quoted [] [] cs
      else if c = ',' then csvScanAux .fieldStart [] [""] cs
      else csvScanAux .bare [c] [] cs
    | .fieldStart =>
      if c = '"' then csvScanAux .quoted [] rc cs
      else if c = ',' then csvScanAux .fieldStart [] (rc ++ [""]) cs
      else if c = '\n' then
        let r := csvScanAux .lineStart [] [] cs
        ((rc ++ [""]) :: r.1, r.2)
      else csvScanAux .bare [c] rc cs
    | .bare =>
      if c = '"' then ([], some .bareQuote)
      else if c = ',' then
        csvScanAux .fieldStart [] (rc ++ [String.mk cur]) cs
      else if c = '\n' then
        let r := csvScanAux .lineStart [] [] cs
        ((rc ++ [String.mk cur]) :: r.1, r.2)
      else csvScanAux .bare (cur ++ [c]) rc cs
    | .quoted =>
      if c = '"' then csvScanAux .postQuote cur rc cs
      else csvScanAux .quoted (cur ++ [c]) rc cs
    | .postQuote =>
      if c = '"' then csvScanAux .quoted (cur ++ ['"']) rc cs
      else if c = ',' then
        csvScanAux .fieldStart [] (rc ++ [String.mk cur]) cs
      else if c = '\n' then
        let r := csvScanAux .lineStart [] [] cs
        ((rc ++ [String.mk cur]) :: r.1, r.2)
      else ([], some .quoteErr)

/-- Scan a whole CSV text into records. -/
def csvScan (s : String) : List (List String) × Option CsvErr :=
  csvScanAux .lineStart [] [] (normCRLF s.data)

/-! ## Errors returned by the package -/

/-- The errors the embedded functions can return. Each constructor
corresponds to one `return err` / `fmt.Errorf` site of the Go code,
carrying the data interpolated into the message. -/
inductive GoErr where
  /-- io.EOF surfaced from reading the header of an empty input -/
  | eof : GoErr
  /-- an error from the csv.Reader -/
  | csv : CsvErr → GoErr
  /-- unexpected header value (ReadMetadata), carrying the original value -/
  | unexpectedHeader : String → GoErr
  /-- missing required header value (ReadMetadata) -/
  | missingHeader : String → GoErr
  /-- the DataDirectory object requires Config.DataDirPath (New) -/
  | dirPathRequired : GoErr
  /-- model/version not found in data models service (New) -/
  | modelNotFound : String → String → GoErr
  /-- line missing required value (Validate) -/
  | missingValue : String → String → GoErr
  /-- organization does not match expected organization (Validate) -/
  | orgMismatch : String → String → String → GoErr
  /-- cdm/version not found in data models service (Validate) -/
  | cdmNotFound : String → String → String → GoErr
  /-- cdm does not match expected model (Validate) -/
  | modelMismatch : String → String → String → GoErr
  /-- cdm-version does not match expected model version (Validate) -/
  | versionMismatch : String → String → String → GoErr
  /-- table not found in data models service (Validate) -/
  | tableNotFound : String → String → GoErr
  /-- data-version does not match expected data version (Validate) -/
  | dataVersionMismatch : String → String → String → GoErr
  /-- os.Open failed on a data file (Validate / populateRecord) -/
  | fileOpen : String → GoErr
  /-- file checksum does not match (Validate) -/
  | checksumMismatch : String → String → GoErr
deriving DecidableEq, Repr

/-- Decidable equality of results, for concrete evaluation. -/
instance {ε α : Type} [DecidableEq ε] [DecidableEq α] :
    DecidableEq (Except ε α) := fun a b =>
  match a, b with
  | .ok x, .ok y =>
    if h : x = y then isTrue (by rw [h])
    else isFalse (fun hh => h (Except.ok.inj hh))
  | .error x, .error y =>
    if h : x = y then isTrue (by rw [h])
    else isFalse (fun hh => h (Except.error.inj hh))
  | .ok _, .error _ => isFalse (fun hh => Except.noConfusion hh)
  | .error _, .ok _ => isFalse (fun hh => Except.noConfusion hh)

/-! ## The DataDirectory object (datadirectory.go) -/

/-- The simplified data-models-service information
(DataDirectory.serviceModels): a map from model name to an inner map
holding the list of versions under the key "sorted" and a table list
under each version key. -/
abbrev SModels := List (String × List (String × List String))

/-- Read a model's inner map (Go: d.serviceModels[model], nil when absent). -/
def smInner (sm : SModels) (model : String) : List (String × List String) :=
  (sm.lookup model).getD []

/-- Read a key of a model's inner map (nil slice when absent). -/
def smList (sm : SModels) (model key : String) : List String :=
  ((smInner sm model).lookup key).getD []

/-- The version list of a model (Go: d.serviceModels[model]["sorted"]). -/
def smVersions (sm : SModels) (model : String) : List String :=
  smList sm model "sorted"

/-- Whether a model name is a key of serviceModels. -/
def smHasModel (sm : SModels) (model : String) : Bool :=
  (sm.lookup model).isSome

/-- The DataDirectory struct. Field defaults are Go zero values, so
an all-default value models the literal &DataDirectory{} of the tests. -/
structure DataDirectory where
  RecordMaps : List RecordMap := []
  Site : String := ""
  Model : String := ""
  ModelVersion : String := ""
  DataVersion : String := ""
  Etl : String := ""
  DirPath : String := ""
  FilePath : String := ""
  header : List String := []
  service : String := ""
  serviceModels : SModels := []
deriving DecidableEq, Repr

/-! ## ReadMetadata (read.go) -/

/-- The first header loop of ReadMetadata: lower-case each header value
in place and stop at the first value outside canonicalHeader. Returns
the header array as the loop left it (lowered up to and including the
failing position) and the error, if any; the error carries the
original, un-lowered value as in the Go message. -/
def checkHeaderVals : List String → List String × Option GoErr
  | [] => ([], none)
  | h :: hs =>
    let lh := lowerStr h
    if lh ∈ canonicalHeader then
      let r := checkHeaderVals hs
      (lh :: r.1, r.2)
    else (lh :: hs, some (.unexpectedHeader h))

/-- The second header loop of ReadMetadata: every required header value
must be present. -/
def checkRequired (hs : List String) : Option GoErr :=
  match requiredFields.find? (fun rq => !(hs.contains rq)) with
  | some rq => some (.missingHeader rq)
  | none => none

/-- Value normalization when building a record: every value is
lower-cased except organization, filename and etl. -/
def normalizeVal (field v : String) : String :=
  if field = "organization" ∨ field = "filename" ∨ field = "etl" then v
  else lowerStr v

/-- Build the record map for one csv record: header value to
(normalized) record value, plus the synthetic line field. -/
def buildRecordMap (hs vals : List String) (line : Nat) : RecordMap :=
  rmSet ((hs.zip vals).foldl
    (fun m p => rmSet m p.1 (normalizeVal p.1 p.2)) []) "line" (toString line)

/-- The record loop of ReadMetadata: records already read are kept even
when a later read stops with a csv error; a record whose field count
differs from the header's stops with ErrFieldCount. `line` counts the
csv records read so far, starting at 1 for the header. -/
def readRecords (hs : List String) (scanErr : Option CsvErr) :
    List (List String) → Nat → List RecordMap × Option GoErr
  | [], _ => ([], scanErr.map GoErr.csv)
  | row :: rows, line =>
    if row.length = hs.length then
      let r := readRecords hs scanErr rows (line + 1)
      (buildRecordMap hs row (line + 1) :: r.1, r.2)
    else ([], some (GoErr.csv .fieldCount))

/-- ReadMetadata (read.go): read the header, lower-case and check it,
check required values, then append one record map per csv record to
RecordMaps. Returns the result together with the mutated object. -/
def readMetadata (d : DataDirectory) (text : String) :
    Except GoErr Unit × DataDirectory :=
  match csvScan text with
  | ([], scanErr) =>
    (.error (match scanErr with | some e => .csv e | none => .eof),
     { d with header := [] })
  | (hs :: rows, scanErr) =>
    let ch := checkHeaderVals hs
    match ch.2 with
    | some e => (.error e, { d with header := ch.1 })
    | none =>
      match checkRequired ch.1 with
      | some e => (.error e, { d with header := ch.1 })
      | none =>
        let rr := readRecords ch.1 scanErr rows 1
        ((match rr.2 with | some e => .error e | none => .ok ()),
         { d with header := ch.1, RecordMaps := d.RecordMaps ++ rr.1 })

/-- The batch of records a ReadMetadata call appends; it depends only
on the input text, not on the DataDirectory state. -/
def parsedBatch (text : String) : List RecordMap :=
  match csvScan text with
  | ([], _) => []
  | (hs :: rows, scanErr) =>
    let ch := checkHeaderVals hs
    if ch.2.isSome then []
    else if (checkRequired ch.1).isSome then []
    else (readRecords ch.1 scanErr rows 1).1

/-! ## WriteMetadata and WriteMetadataToFile (write.go) -/

/-- strings.Join at character level. -/
def goJoin (sep : List Char) : List String → List Char
  | [] => []
  | [x] => x.data
  | x :: xs => x.data ++ sep ++ goJoin sep xs

/-- One output line: fmt.Sprintf of a quote, the row joined by
quote-comma-quote, a quote and a newline. -/
def quoteLine (row : List String) : List Char :=
  '"' :: (goJoin ['"', ',', '"'] row ++ ['"', '\n'])

/-- WriteMetadata (write.go): the header line, then one line per
record, fields ordered per the header (absent fields read as ""). -/
def writeMetadataChars (hs : List String) (recs : List RecordMap) : List Char :=
  quoteLine hs ++ (recs.map (fun r => quoteLine (hs.map (rmGet r)))).flatten

/-- WriteMetadata as a String. -/
def writeMetadata (d : DataDirectory) : String :=
  String.mk (writeMetadataChars d.header d.RecordMaps)

/-- The open flags of os.OpenFile in WriteMetadataToFile (write.go):
os.O_CREATE and os.O_WRONLY, without os.O_TRUNC. -/
structure OpenFlags where
  create : Bool
  writeOnly : Bool
  truncate : Bool
deriving DecidableEq, Repr

/-- The flag set WriteMetadataToFile passes to os.OpenFile. -/
def writeToFileFlags : OpenFlags :=
  { create := true, writeOnly := true, truncate := false }

/-- POSIX open-then-write semantics: with truncation the previous
content is discarded; without it, writing starts at offset zero over
the previous bytes, and previous bytes beyond the written length
remain. `old` is none when the file did not exist (created empty). -/
def fileAfterWrite (old : Option (List Char)) (flags : OpenFlags)
    (written : List Char) : List Char :=
  let base := if flags.truncate then [] else old.getD []
  written ++ base.drop written.length

/-- WriteMetadataToFile (write.go): open metadata.csv with
writeToFileFlags and write the WriteMetadata output; the resulting
file content. -/
def writeMetadataToFile (d : DataDirectory) (old : Option (List Char)) :
    List Char :=
  fileAfterWrite old writeToFileFlags (writeMetadataChars d.header d.RecordMaps)

/-! ## SHA-256 (crypto/sha256) and hex encoding (encoding/hex)

The package hashes each data file with crypto/sha256 and hex-encodes
the digest. SHA-256 is implemented here concretely over byte lists
(naturals below 256), with 32-bit words as naturals reduced mod 2^32. -/

/-- Addition mod 2^32. -/
def add32 (a b : Nat) : Nat := (a + b) % 4294967296

/-- Right rotation of a 32-bit word. -/
def rotr32 (n x : Nat) : Nat :=
  (x >>> n) ||| ((x % (1 <<< n)) <<< (32 - n))

/-- Bitwise complement of a 32-bit word. -/
def not32 (x : Nat) : Nat := x ^^^ 4294967295

/-- Big-endian bytes of a word, most significant first. -/
def toBytesBE (n x : Nat) : List Nat :=
  (List.range n).map (fun i => (x >>> (8 * (n - 1 - i))) % 256)

/-- The SHA-256 round constants. -/
def sha256K : List Nat :=
  [1116352408, 1899447441, 3049323471, 3921009573,
   961987163, 1508970993, 2453635748, 2870763221,
   3624381080, 310598401, 607225278, 1426881987,
   1925078388, 2162078206, 2614888103, 3248222580,
   3835390401, 4022224774, 264347078, 604807628,
   770255983, 1249150122, 1555081692, 1996064986,
   2554220882, 2821834349, 2952996808, 3210313671,
   3336571891, 3584528711, 113926993, 338241895,
   666307205, 773529912, 1294757372, 1396182291,
   1695183700, 1986661051, 2177026350, 2456956037,
   2730485921, 2820302411, 3259730800, 3345764771,
   3516065817, 3600352804, 4094571909, 275423344,
   430227734, 506948616, 659060556, 883997877,
   958139571, 1322822218, 1537002063, 1747873779,
   1955562222, 2024104815, 2227730452, 2361852424,
   2428436474, 2756734187, 3204031479, 3329325298]

/-- The SHA-256 initial hash value. -/
def sha256H0 : List Nat :=
  [1779033703, 3144134277, 1013904242, 2773480762,
   1359893119, 2600822924, 528734635, 1541459225]

/-- SHA-256 padding: a 0x80 byte, zeros to 56 mod 64, and the bit
length as eight big-endian bytes. -/
def sha256Pad (msg : List Nat) : List Nat :=
  let L := msg.length
  let z := (56 + 64 - ((L + 1) % 64)) % 64
  msg ++ [128] ++ List.replicate z 0 ++ toBytesBE 8 (8 * L)

/-- Big-endian 32-bit words from bytes. -/
def bytesToWords : List Nat → List Nat
  | b0 :: b1 :: b2 :: b3 :: rest =>
    (((b0 * 256 + b1) * 256 + b2) * 256 + b3) :: bytesToWords rest
  | _ => []

/-- Extend the 16 message-schedule words to 64. -/
def sha256Extend : Nat → List Nat → List Nat
  | 0, w => w
  | k + 1, w =>
    let i := w.length
    let s0v := let x := w.getD (i - 15) 0
      rotr32 7 x ^^^ rotr32 18 x ^^^ (x >>> 3)
    let s1v := let x := w.getD (i - 2) 0
      rotr32 17 x ^^^ rotr32 19 x ^^^ (x >>> 10)
    sha256Extend k (w ++ [add32 (add32 (w.getD (i - 16) 0) s0v)
      (add32 (w.getD (i - 7) 0) s1v)])

/-- One SHA-256 round. st is the word list a,b,c,d,e,f,g,h. -/
def sha256Round (st : List Nat) (p : Nat × Nat) : List Nat :=
  let a := st.getD 0 0
  let b := st.getD 1 0
  let c := st.getD 2 0
  let d := st.getD 3 0
  let e := st.getD 4 0
  let f := st.getD 5 0
  let g := st.getD 6 0
  let hh := st.getD 7 0
  let bigS1 := rotr32 6 e ^^^ rotr32 11 e ^^^ rotr32 25 e
  let ch := (e &&& f) ^^^ (not32 e &&& g)
  let temp1 := add32 (add32 (add32 (add32 hh bigS1) ch) p.1) p.2
  let bigS0 := rotr32 2 a ^^^ rotr32 13 a ^^^ rotr32 22 a
  let maj := (a &&& b) ^^^ (a &&& c) ^^^ (b &&& c)
  let temp2 := add32 bigS0 maj
  [add32 temp1 temp2, a, b, c, add32 d temp1, e, f, g]

/-- Compress one 64-byte block into the hash state. -/
def sha256Compress (h : List Nat) (block : List Nat) : List Nat :=
  let w := sha256Extend 48 (bytesToWords block)
  let st := (sha256K.zip w).foldl sha256Round h
  (h.zip st).map (fun p => add32 p.1 p.2)

/-- Split into 64-byte blocks; the fuel is an upper bound on the
number of blocks (each block consumes at least one byte). -/
def chunks64Aux : Nat → List Nat → List (List Nat)
  | 0, _ => []
  | _, [] => []
  | fuel + 1, a :: l => ((a :: l).take 64) :: chunks64Aux fuel ((a :: l).drop 64)

/-- Split into 64-byte blocks. -/
def chunks64 (l : List Nat) : List (List Nat) :=
  chunks64Aux l.length l

/-- The SHA-256 digest (32 bytes) of a byte list. -/
def sha256 (msg : List Nat) : List Nat :=
  let hh := (chunks64 (sha256Pad msg)).foldl sha256Compress sha256H0
  (hh.map (toBytesBE 4)).flatten

/-- One lowercase hex digit. -/
def hexDigit (n : Nat) : Char :=
  "0123456789abcdef".data.getD n '0'

/-- hex.EncodeToString: lowercase hex of a byte list. -/
def hexEncode (bytes : List Nat) : String :=
  String.mk ((bytes.map
    (fun b => [hexDigit (b % 256 / 16), hexDigit (b % 16)])).flatten)

/-- The checksum string the package stores for a file content. -/
def checksumOf (content : List Nat) : String :=
  hexEncode (sha256 content)

/-! ## New (datadirectory.go) -/

/-- Config (datadirectory.go); defaults are Go zero values. -/
structure Config where
  DataDirPath : String := ""
  DataVersion : String := ""
  Etl : String := ""
  Model : String := ""
  ModelVersion : String := ""
  Service : String := ""
  Site : String := ""
deriving DecidableEq, Repr

/-- One entry of the model list returned by the data models service
client (client.Models.List() yields models carrying Name, Version and
table names). The client is an external collaborator; the list is a
parameter of the embedding. -/
structure ClientModel where
  name : String
  version : String
  tables : List String
deriving DecidableEq, Repr

/-- The default service endpoint (dataModelsService in datadirectory.go). -/
def dataModelsService : String :=
  "https://data-models-service.research.chop.edu"

/-- filepath.Join, simplified to inserting one separator (the paths
the package joins are clean and relative, where the two agree). -/
def joinPath (a b : String) : String :=
  a ++ "/" ++ b

/-- Write a key of an inner serviceModels map. -/
def alSet (m : List (String × List String)) (k : String) (v : List String) :
    List (String × List String) :=
  if (m.lookup k).isSome then m.map (fun p => if p.1 = k then (k, v) else p)
  else m ++ [(k, v)]

/-- Fold one client model into serviceModels: append its version to
the model's "sorted" list and record its table names under the
version key (the loop body in New). -/
def smAdd (sm : SModels) (cm : ClientModel) : SModels :=
  let inner := smInner sm cm.name
  let inner2 := alSet (alSet inner "sorted"
    (((inner.lookup "sorted").getD []) ++ [cm.version])) cm.version cm.tables
  if smHasModel sm cm.name then
    sm.map (fun p => if p.1 = cm.name then (cm.name, inner2) else p)
  else sm ++ [(cm.name, inner2)]

/-- Construct serviceModels from the client model list (New). -/
def buildServiceModels (l : List ClientModel) : SModels :=
  l.foldl smAdd []

/-- Lexicographic comparison of character lists (true when the first
is less than or equal to the second). On the UTF-8 strings Go sorts,
codepoint order and byte order agree. -/
def charListLe : List Char → List Char → Bool
  | [], _ => true
  | _ :: _, [] => false
  | a :: as, b :: bs =>
    if a < b then true else if b < a then false else charListLe as bs

/-- Byte-wise string comparison (the order of sort.StringSlice). -/
def strLeb (a b : String) : Bool :=
  charListLe a.data b.data

/-- sort.StringSlice.Sort: ascending lexicographic (byte-wise) string
sort. Modelled by insertion sort, which produces the same list for
this total order. -/
def sortStrings (l : List String) : List String :=
  List.insertionSort (fun a b => strLeb a b = true) l

/-- The model search loop of New: walking serviceModels, sort each
visited model's version list in place; at the searched model resolve
the version (the last sorted entry when the requested version is
empty, else membership). Returns the updated serviceModels, the mFound
and vFound flags and the resolved version. Entries after the searched
model are left untouched (the loop breaks). -/
def newSearch (target tv : String) :
    SModels → SModels × Bool × Bool × String
  | [] => ([], false, false, tv)
  | (model, info) :: rest =>
    let sortedV := sortStrings ((info.lookup "sorted").getD [])
    let info2 := alSet info "sorted" sortedV
    if target = model then
      if tv = "" then
        ((model, info2) :: rest, true, true, sortedV.getLastD "")
      else ((model, info2) :: rest, true, sortedV.contains tv, tv)
    else
      let r := newSearch target tv rest
      ((model, info2) :: r.1, r.2)

/-- New (datadirectory.go): require DataDirPath, build the object with
lower-cased model fields, fold the service's model list into
serviceModels, and when a model was requested resolve its version
(latest when none requested) or fail. The service client itself is
external; its model list is the cModels parameter. -/
def new (cfg : Config) (cModels : List ClientModel) :
    Except GoErr DataDirectory :=
  if cfg.DataDirPath = "" then .error .dirPathRequired
  else
    let d : DataDirectory :=
      { RecordMaps := []
        Site := cfg.Site
        Model := lowerStr cfg.Model
        ModelVersion := lowerStr cfg.ModelVersion
        DataVersion := lowerStr cfg.DataVersion
        Etl := cfg.Etl
        DirPath := cfg.DataDirPath
        FilePath := joinPath cfg.DataDirPath "metadata.csv"
        header := canonicalHeader
        service := if cfg.Service = "" then dataModelsService else cfg.Service
        serviceModels := buildServiceModels cModels }
    if d.Model = "" then .ok d
    else
      let s := newSearch d.Model d.ModelVersion d.serviceModels
      if s.2.1 ∧ s.2.2.1 then
        .ok { d with ModelVersion := s.2.2.2, serviceModels := s.1 }
      else .error (.modelNotFound d.Model d.ModelVersion)

/-! ## Semantic version ordering (the ordering the specification
names for "latest"); this is the specification's notion, defined here
to compare against the code's byte-wise string sort. -/

/-- Split on dots, character level. -/
def splitDots : List Char → List (List Char)
  | [] => [[]]
  | '.' :: cs => [] :: splitDots cs
  | c :: cs =>
    match splitDots cs with
    | [] => [[c]]
    | g :: gs => (c :: g) :: gs

/-- Decimal digits to a natural number. -/
def digitsToNat (l : List Char) : Nat :=
  l.foldl (fun acc c => acc * 10 + (c.toNat - 48)) 0

/-- The numeric components of a version string. -/
def semverParts (v : String) : List Nat :=
  (splitDots v.data).map digitsToNat

/-- Lexicographic comparison of numeric component lists. -/
def partsLt : List Nat → List Nat → Bool
  | [], [] => false
  | [], _ :: _ => true
  | _ :: _, [] => false
  | a :: as, b :: bs =>
    if a < b then true else if b < a then false else partsLt as bs

/-- Modelled from the spec: the semantic-version order on version
strings ("semantic version ordering", spec section 4.2). -/
def semverLt (a b : String) : Bool :=
  partsLt (semverParts a) (semverParts b)

/-- Modelled from the spec: the semantically greatest entry of a
version list. -/
def semverGreatest (vs : List String) : String :=
  vs.foldl (fun acc v => if semverLt acc v then v else acc) (vs.headD "")

/-! ## Validate (validate.go) -/

/-- The required-values loop of Validate: the first required field
whose value is empty, in the modelled headerReq order. -/
def findMissingValue (r : RecordMap) : Option String :=
  requiredFields.find? (fun f => rmGet r f = "")

/-- The serviceModels loop of Validate: find the record's cdm among
the models; when found and the record's cdm-version is empty, fill it
in place with the last entry of the model's version list; otherwise
check membership. Returns the (possibly filled) record and the mFound
and vFound flags. -/
def findModelFill (r : RecordMap) : SModels → RecordMap × Bool × Bool
  | [] => (r, false, false)
  | (model, info) :: rest =>
    if rmGet r "cdm" = model then
      let versions := (info.lookup "sorted").getD []
      if rmGet r "cdm-version" = "" then
        (rmSet r "cdm-version" (versions.getLastD ""), true, true)
      else (r, true, versions.contains (rmGet r "cdm-version"))
    else findModelFill r rest

/-- The checks of the first Validate loop after the serviceModels
search, in source order, applied to the loop's outcome fm (the
possibly filled record and the mFound and vFound flags). -/
def validateRecord1Tail (model modelVersion dataVersion : String)
    (sm : SModels) (fm : RecordMap × Bool × Bool) : RecordMap × Option GoErr :=
  let r2 := fm.1
  if ¬(fm.2.1 ∧ fm.2.2) then
    (r2, some (.cdmNotFound (rmGet r2 "line") (rmGet r2 "cdm")
      (rmGet r2 "cdm-version")))
  else if model ≠ "" ∧ rmGet r2 "cdm" ≠ model then
    (r2, some (.modelMismatch (rmGet r2 "line") (rmGet r2 "cdm") model))
  else if modelVersion ≠ "" ∧ rmGet r2 "cdm-version" ≠ modelVersion then
    (r2, some (.versionMismatch (rmGet r2 "line")
      (rmGet r2 "cdm-version") modelVersion))
  else if ¬ (smList sm (rmGet r2 "cdm") (rmGet r2 "cdm-version")).contains
      (rmGet r2 "table") then
    (r2, some (.tableNotFound (rmGet r2 "line") (rmGet r2 "table")))
  else if dataVersion ≠ "" ∧ rmGet r2 "data-version" ≠ "" ∧
      rmGet r2 "data-version" ≠ dataVersion then
    (r2, some (.dataVersionMismatch (rmGet r2 "line")
      (rmGet r2 "data-version") dataVersion))
  else (r2, none)

/-- The per-record body of the first Validate loop (every check except
the checksum), in source order; returns the record as the loop body
left it together with the error, if any. -/
def validateRecord1 (site model modelVersion dataVersion : String)
    (sm : SModels) (r : RecordMap) : RecordMap × Option GoErr :=
  match findMissingValue r with
  | some f => (r, some (.missingValue (rmGet r "line") f))
  | none =>
    if site ≠ "" ∧ rmGet r "organization" ≠ site then
      (r, some (.orgMismatch (rmGet r "line") (rmGet r "site") site))
    else validateRecord1Tail model modelVersion dataVersion sm
      (findModelFill r sm)

/-- The first Validate loop over all records: stops at the first
rejected record; mutations to records already processed (the
cdm-version fill) persist. -/
def validatePass1 (site model modelVersion dataVersion : String)
    (sm : SModels) : List RecordMap → List RecordMap × Option GoErr
  | [] => ([], none)
  | r :: rs =>
    let v := validateRecord1 site model modelVersion dataVersion sm r
    match v.2 with
    | some e => (v.1 :: rs, some e)
    | none =>
      let p := validatePass1 site model modelVersion dataVersion sm rs
      (v.1 :: p.1, p.2)

/-- The second Validate loop: open each record's file under the data
directory, log that its checksum is being validated (the observable
event, returned as the filename list, in order), recompute the SHA-256
digest and compare. Stops at the first open failure (no log) or
checksum mismatch (logged first). -/
def validatePass2 (dirPath : String) (fs : String → Option (List Nat)) :
    List RecordMap → Option GoErr × List String
  | [] => (none, [])
  | r :: rs =>
    match fs (joinPath dirPath (rmGet r "filename")) with
    | none => (some (.fileOpen (joinPath dirPath (rmGet r "filename"))), [])
    | some content =>
      if rmGet r "checksum" = checksumOf content then
        let p := validatePass2 dirPath fs rs
        (p.1, rmGet r "filename" :: p.2)
      else
        (some (.checksumMismatch (rmGet r "line") (rmGet r "filename")),
         [rmGet r "filename"])

/-- Validate (validate.go): the first pass checks every record against
the object and the serviceModels; only if every record passes does the
second pass verify the checksums. `fs` maps a path to the content of
the file there (none: not openable). Returns the result, the object
with the records as the passes left them, and the checksum-verify
events in order. -/
def validate (d : DataDirectory) (fs : String → Option (List Nat)) :
    Except GoErr Unit × DataDirectory × List String :=
  let p1 := validatePass1 d.Site d.Model d.ModelVersion d.DataVersion
    d.serviceModels d.RecordMaps
  let d2 := { d with RecordMaps := p1.1 }
  match p1.2 with
  | some e => (.error e, d2, [])
  | none =>
    let p2 := validatePass2 d.DirPath fs p1.1
    ((match p2.1 with | some e => .error e | none => .ok ()), d2, p2.2)

/-! ## PopulateMetadataFromData / populateRecord (populate.go) -/

/-- filepath.Base, for the clean relative paths the walk produces. -/
def goBase (s : String) : String :=
  String.mk ((s.data.reverse.takeWhile (fun c => c ≠ '/')).reverse)

/-- filepath.Ext: the suffix from the final dot of the final path
element; empty when there is no dot. -/
def goExt (s : String) : String :=
  let rb := (goBase s).data.reverse
  if rb.contains '.' then
    String.mk ('.' :: (rb.takeWhile (fun c => c ≠ '.')).reverse)
  else ""

/-- strings.TrimSuffix. -/
def stripSuffix (s suf : String) : String :=
  if s.data.reverse.take suf.data.length = suf.data.reverse then
    String.mk (s.data.take (s.data.length - suf.data.length))
  else s

/-- One entry delivered by filepath.Walk, identified by its path
relative to the data directory; content is none when the file cannot
be opened. The walk delivers entries in lexical order; the embedding
takes the ordered entry list as given. -/
structure WalkEntry where
  relPath : String
  isDir : Bool
  content : Option (List Nat)
deriving DecidableEq, Repr

/-- Whether populateRecord treats the entry as a data file (not a
directory, extension ".csv", not the ledger file itself). -/
def isDataFile (e : WalkEntry) : Bool :=
  ¬e.isDir ∧ goExt e.relPath = ".csv" ∧ e.relPath ≠ "metadata.csv"

/-- populateRecord (populate.go), the walk callback: skip directories,
files without the ".csv" extension and the ledger file; derive the
table name from the base name, or from the input collaborator
(collectInput, here the oracle `collect`, whose answer is lower-cased)
when unknown; hash the content; append one record built from the
header fields; set its line to the record count plus one (counted
after the append). -/
def populateRecord (collect : String → List String → String)
    (d : DataDirectory) (e : WalkEntry) : Except GoErr DataDirectory :=
  if e.isDir ∨ goExt e.relPath ≠ ".csv" ∨ e.relPath = "metadata.csv" then .ok d
  else
    let table0 := stripSuffix (goBase e.relPath) ".csv"
    let known := smList d.serviceModels d.Model d.ModelVersion
    let table := if known.contains table0 then table0
      else lowerStr (collect e.relPath known)
    match e.content with
    | none => .error (.fileOpen (joinPath d.DirPath e.relPath))
    | some content =>
      let sumStr := checksumOf content
      let rm0 := d.header.foldl (fun m val =>
        if val = "organization" then rmSet m val d.Site
        else if val = "filename" then rmSet m val e.relPath
        else if val = "checksum" then rmSet m val sumStr
        else if val = "cdm" then rmSet m val d.Model
        else if val = "cdm-version" then rmSet m val d.ModelVersion
        else if val = "table" then rmSet m val table
        else if val = "etl" then rmSet m val d.Etl
        else if val = "data-version" then rmSet m val d.DataVersion
        else m) []
      let rm := rmSet rm0 "line" (toString (d.RecordMaps.length + 2))
      .ok { d with RecordMaps := d.RecordMaps ++ [rm] }

/-- The walk of PopulateMetadataFromData over the ordered entry list:
apply populateRecord to each entry, aborting at the first error. -/
def populateAll (collect : String → List String → String)
    (d : DataDirectory) : List WalkEntry → Except GoErr DataDirectory
  | [] => .ok d
  | e :: es =>
    match populateRecord collect d e with
    | .error er => .error er
    | .ok d2 => populateAll collect d2 es

/-! ## Derived notions used by the theorems -/

/-- The ledger text of the parsing example (read_test.go). -/
def ledgerExample : String :=
  "organization,filename,checksum,cdm,table,etl\nfoo,./data,456,pedsnet,Person,http://foo.org/etl\n"

/-- Whether a ReadMetadata result is a schema error (a bad or missing
header value), as opposed to success or a csv format error. -/
def isSchemaError : Except GoErr Unit → Bool
  | .error (.unexpectedHeader _) => true
  | .error (.missingHeader _) => true
  | _ => false

/-- Whether a per-record validation outcome is specifically the
organization-mismatch rejection. -/
def isOrgErr : Option GoErr → Bool
  | some (.orgMismatch _ _ _) => true
  | _ => false

/-- The version Validate fills an empty cdm-version with: the last
entry of the model's version list (the catalog keeps each list in
ascending order, so the last entry is the latest version). -/
def latestVersion (sm : SModels) (m : String) : String :=
  (smVersions sm m).getLastD ""

/-- Record equality modulo the synthetic line field: both records read
the same value at every other field. -/
def eqModLine (a b : RecordMap) : Prop :=
  ∀ f, f ≠ "line" → rmGet a f = rmGet b f

/-- A value WriteMetadata can serialize losslessly: no double quote
(WriteMetadata does not escape quotes) and no carriage return (the
reader normalizes CRLF pairs away). -/
def cleanValue (v : String) : Bool :=
  !(v.data.contains '"') && !(v.data.contains '\r')

/-- The checksums of the data files of an entry list, in walk order. -/
def dataChecksums (es : List WalkEntry) : List String :=
  (es.filter isDataFile).map (fun e => checksumOf (e.content.getD []))

/-- A concrete object for the organization-check witness. -/
def c2witDir : DataDirectory :=
  { Site := "org", RecordMaps := [[("organization", "foobar")]] }

/-- A concrete object for the version-fill witness. -/
def c6witDir : DataDirectory :=
  { serviceModels := [("pedsnet", [("sorted", ["1.0.0", "2.1.0"])])] }

/-- A record with an empty cdm-version, for the version-fill witness. -/
def c6witRecA : RecordMap :=
  [("organization", "o"), ("filename", "f"), ("checksum", "c"),
   ("cdm", "pedsnet"), ("table", "person"), ("etl", "e")]

/-- A record with a bogus cdm-version, for the version-fill witness. -/
def c6witRecB : RecordMap :=
  [("organization", "o"), ("filename", "f"), ("checksum", "c"),
   ("cdm", "pedsnet"), ("cdm-version", "9.9.9"), ("table", "person"),
   ("etl", "e")]

/-- The catalog of the version-resolution counterexample: one model
with versions whose semantic and byte-wise orders disagree. -/
def c3cexCat : List ClientModel :=
  [⟨"m", "1.9.0", []⟩, ⟨"m", "1.10.0", []⟩]

/-- Resolution with no explicit version. -/
def c3cexCfg : Config := { DataDirPath := "dd", Model := "m" }

/-- Resolution of an unknown model. -/
def c3cexCfgB : Config := { DataDirPath := "dd", Model := "nope" }

/-- Resolution of a known model with an absent explicit version. -/
def c3cexCfgC : Config :=
  { DataDirPath := "dd", Model := "m", ModelVersion := "9.9.9" }

/-- The scan witness: a directory context as New builds it. -/
def c8witDir : DataDirectory :=
  { header := canonicalHeader, Site := "s", Model := "m",
    ModelVersion := "1", Etl := "e", DirPath := "dd",
    serviceModels := [("m", [("sorted", ["1"]), ("1", ["a"])])] }

/-- The scan witness entry list: the root directory, the ledger file,
one data file and one non-data file. -/
def c8witEntries : List WalkEntry :=
  [⟨".", true, none⟩, ⟨"metadata.csv", false, some []⟩,
   ⟨"a.csv", false, some [97]⟩, ⟨"b.txt", false, some []⟩]

/-- The scan witness input oracle. -/
def c8witCollect : String → List String → String :=
  fun _ _ => "a"

/-- The scan witness result object. -/
def c8witD2 : DataDirectory :=
  (populateAll c8witCollect c8witDir c8witEntries).toOption.getD {}

/-- The characters of a serialized row after its opening quote: each
field, a closing quote, and either a quote-comma-quote separator or
the final quote and newline. -/
def rowTail : List String → List Char
  | [] => ['"', '\n']
  | [f] => f.data ++ ['"', '\n']
  | f :: fs => f.data ++ '"' :: ',' :: '"' :: rowTail fs

/-- A concrete object for the round-trip counterexample: the table
value carries an upper-case letter. -/
def c1cexDir : DataDirectory :=
  { header := ["organization", "filename", "checksum", "cdm", "table", "etl"],
    RecordMaps := [[("organization", "foo"), ("filename", "./data"),
      ("checksum", "456"), ("cdm", "pedsnet"), ("table", "Person"),
      ("etl", "http://foo.org/etl")]] }

/-- A concrete object for the round-trip witness: lower-case values at
the lower-cased fields, case preserved elsewhere. -/
def c1witDir : DataDirectory :=
  { header := ["organization", "filename", "checksum", "cdm", "table", "etl"],
    RecordMaps := [[("organization", "Foo"), ("filename", "./data"),
      ("checksum", "456"), ("cdm", "pedsnet"), ("table", "person"),
      ("etl", "http://Foo.org/ETL")]] }

/-! # Theorems -/

/-- C4: Parsing the exact ledger text
"organization,filename,checksum,cdm,table,etl\nfoo,./data,456,pedsnet,Person,http://foo.org/etl\n"
succeeds and yields exactly one record whose map has 7 entries (the 6
header fields plus line), with line equal to "2", table equal to
"person" (lower-cased) and organization equal to "foo" (case
preserved). -/
theorem c4_parse_example :
    (readMetadata {} ledgerExample).1 = .ok () ∧
    (readMetadata {} ledgerExample).2.RecordMaps.length = 1 ∧
    rmSize ((readMetadata {} ledgerExample).2.RecordMaps.headD []) = 7 ∧
    rmGet ((readMetadata {} ledgerExample).2.RecordMaps.headD []) "line" = "2" ∧
    rmGet ((readMetadata {} ledgerExample).2.RecordMaps.headD []) "table"
      = "person" ∧
    rmGet ((readMetadata {} ledgerExample).2.RecordMaps.headD []) "organization"
      = "foo" :=
  ⟨rfl, by decide, by decide, by decide, by decide, by decide⟩

/-- C9: WriteMetadataToFile opens the ledger file with create and
write-only flags but without truncation, so when the existing file is
longer than the newly serialized content, the written bytes form a
proper first part of the result and the old bytes beyond the written
length remain; in particular the resulting file differs from the
serialized content — the existing file is not fully replaced. -/
theorem c9_no_truncate (d : DataDirectory) (old : List Char)
    (h : (writeMetadataChars d.header d.RecordMaps).length < old.length) :
    writeToFileFlags.create = true ∧
    writeToFileFlags.writeOnly = true ∧
    writeToFileFlags.truncate = false ∧
    (writeMetadataToFile d (some old)).take
        (writeMetadataChars d.header d.RecordMaps).length
      = writeMetadataChars d.header d.RecordMaps ∧
    (writeMetadataToFile d (some old)).drop
        (writeMetadataChars d.header d.RecordMaps).length
      = old.drop (writeMetadataChars d.header d.RecordMaps).length ∧
    writeMetadataToFile d (some old) ≠ writeMetadataChars d.header d.RecordMaps := by
  have hw : writeMetadataToFile d (some old)
      = writeMetadataChars d.header d.RecordMaps
        ++ old.drop (writeMetadataChars d.header d.RecordMaps).length := rfl
  refine ⟨rfl, rfl, rfl, ?_, ?_, ?_⟩
  · rw [hw, List.take_left]
  · rw [hw, List.drop_left]
  · rw [hw]
    intro heq
    have hlen := congrArg List.length heq
    simp only [List.length_append, List.length_drop] at hlen
    omega

/-- Witness for c9_no_truncate at a concrete object and old file. -/
theorem c9_no_truncate_witness :
    (writeMetadataChars ({} : DataDirectory).header
      ({} : DataDirectory).RecordMaps).length
        < (['a', 'b', 'c', 'd', 'e'] : List Char).length ∧
    writeMetadataToFile {} (some ['a', 'b', 'c', 'd', 'e'])
      ≠ writeMetadataChars ({} : DataDirectory).header
          ({} : DataDirectory).RecordMaps :=
  ⟨by decide,
   (c9_no_truncate {} ['a', 'b', 'c', 'd', 'e'] (by decide)).2.2.2.2.2⟩

/-! ## Validate lemmas -/

/-- List.lookup at a matching head. -/
theorem lookup_cons_self {β : Type} (k : String) (v : β) (rest : List (String × β)) :
    List.lookup k ((k, v) :: rest) = some v := by
  simp [List.lookup]

/-- List.lookup skips a non-matching head. -/
theorem lookup_cons_ne {β : Type} (k m : String) (v : β)
    (rest : List (String × β)) (h : k ≠ m) :
    List.lookup k ((m, v) :: rest) = List.lookup k rest := by
  simp [List.lookup, beq_eq_false_iff_ne.mpr h]

/-- smHasModel on a cons, non-matching head. -/
theorem smHasModel_cons_ne (k m : String) (info : List (String × List String))
    (rest : SModels) (h : k ≠ m) :
    smHasModel ((m, info) :: rest) k = smHasModel rest k := by
  simp [smHasModel, lookup_cons_ne _ _ _ _ h]

/-- smVersions on a cons, matching head. -/
theorem smVersions_cons_self (m : String) (info : List (String × List String))
    (rest : SModels) :
    smVersions ((m, info) :: rest) m = (info.lookup "sorted").getD [] := by
  simp [smVersions, smList, smInner, lookup_cons_self]

/-- smVersions on a cons, non-matching head. -/
theorem smVersions_cons_ne (k m : String) (info : List (String × List String))
    (rest : SModels) (h : k ≠ m) :
    smVersions ((m, info) :: rest) k = smVersions rest k := by
  simp [smVersions, smList, smInner, lookup_cons_ne _ _ _ _ h]

/-- If the first Validate pass accepts, every record passes its
per-record checks. -/
theorem validatePass1_none_mem (site model mv dv : String) (sm : SModels) :
    ∀ rs : List RecordMap, (validatePass1 site model mv dv sm rs).2 = none →
      ∀ r ∈ rs, (validateRecord1 site model mv dv sm r).2 = none := by
  intro rs
  induction rs with
  | nil => intro _ r hr; cases hr
  | cons a rs ih =>
    intro hnone r hr
    cases hv : (validateRecord1 site model mv dv sm a).2 with
    | some e => simp [validatePass1, hv] at hnone
    | none =>
      simp only [validatePass1, hv] at hnone
      rcases List.mem_cons.mp hr with h | h
      · rw [h]; exact hv
      · exact ih hnone r h

/-- When the record's cdm is a known model, the serviceModels loop
finds it; an empty cdm-version is filled with the last entry of the
model's version list. -/
theorem findModelFill_known_empty (r : RecordMap) :
    ∀ sm : SModels, smHasModel sm (rmGet r "cdm") = true →
      rmGet r "cdm-version" = "" →
      findModelFill r sm
        = (rmSet r "cdm-version" (latestVersion sm (rmGet r "cdm")), true, true) := by
  intro sm
  induction sm with
  | nil => intro h; simp [smHasModel] at h
  | cons p rest ih =>
    intro hhas hempty
    obtain ⟨model, info⟩ := p
    by_cases hm : rmGet r "cdm" = model
    · rw [show ((model, info) :: rest : SModels)
          = ((rmGet r "cdm", info) :: rest : SModels) from by rw [hm]]
      simp [findModelFill, hempty, latestVersion, smVersions_cons_self]
    · simp only [findModelFill, if_neg hm]
      rw [ih (by rw [smHasModel_cons_ne _ _ _ _ hm] at hhas; exact hhas) hempty]
      rw [latestVersion, latestVersion, smVersions_cons_ne _ _ _ _ hm]

/-- When the record's cdm is a known model and its cdm-version is
non-empty, the loop leaves the record unchanged and reports whether
the version is among the model's versions. -/
theorem findModelFill_known_ver (r : RecordMap) :
    ∀ sm : SModels, smHasModel sm (rmGet r "cdm") = true →
      rmGet r "cdm-version" ≠ "" →
      findModelFill r sm
        = (r, true, (smVersions sm (rmGet r "cdm")).contains
            (rmGet r "cdm-version")) := by
  intro sm
  induction sm with
  | nil => intro h; simp [smHasModel] at h
  | cons p rest ih =>
    intro hhas hne
    obtain ⟨model, info⟩ := p
    by_cases hm : rmGet r "cdm" = model
    · rw [show ((model, info) :: rest : SModels)
          = ((rmGet r "cdm", info) :: rest : SModels) from by rw [hm]]
      simp [findModelFill, hne, smVersions_cons_self]
    · simp only [findModelFill, if_neg hm]
      rw [ih (by rw [smHasModel_cons_ne _ _ _ _ hm] at hhas; exact hhas) hne]
      rw [smVersions_cons_ne _ _ _ _ hm]

/-- When the record's cdm is unknown, the loop changes nothing and
reports not found. -/
theorem findModelFill_unknown (r : RecordMap) :
    ∀ sm : SModels, smHasModel sm (rmGet r "cdm") = false →
      findModelFill r sm = (r, false, false) := by
  intro sm
  induction sm with
  | nil => intro _; rfl
  | cons p rest ih =>
    intro hhas
    obtain ⟨model, info⟩ := p
    by_cases hm : rmGet r "cdm" = model
    · exfalso
      rw [hm] at hhas
      simp [smHasModel, lookup_cons_self] at hhas
    · simp only [findModelFill, if_neg hm]
      exact ih (by rw [smHasModel_cons_ne _ _ _ _ hm] at hhas; exact hhas)

/-- The checks after the serviceModels search never change the
record: the first component of the outcome is the record the search
produced. -/
theorem validateRecord1Tail_fst (model mv dv : String) (sm : SModels)
    (fm : RecordMap × Bool × Bool) :
    (validateRecord1Tail model mv dv sm fm).1 = fm.1 := by
  unfold validateRecord1Tail
  dsimp only
  split
  · rfl
  split
  · rfl
  split
  · rfl
  split
  · rfl
  split <;> rfl

/-- The checks after the serviceModels search never reject with the
organization-mismatch error. -/
theorem validateRecord1Tail_notOrg (model mv dv : String) (sm : SModels)
    (fm : RecordMap × Bool × Bool) :
    isOrgErr (validateRecord1Tail model mv dv sm fm).2 = false := by
  unfold validateRecord1Tail
  dsimp only
  split
  · rfl
  split
  · rfl
  split
  · rfl
  split
  · rfl
  split <;> rfl

/-- The record a per-record check returns is the input record or, only
when its cdm-version was empty, the input with cdm-version filled with
its model's latest version; no other mutation happens. -/
theorem validateRecord1_fst (site model mv dv : String) (sm : SModels)
    (r : RecordMap) :
    (validateRecord1 site model mv dv sm r).1 = r ∨
      (rmGet r "cdm-version" = "" ∧
        (validateRecord1 site model mv dv sm r).1
          = rmSet r "cdm-version" (latestVersion sm (rmGet r "cdm"))) := by
  cases hf : findMissingValue r with
  | some f => left; simp [validateRecord1, hf]
  | none =>
    by_cases horg : site ≠ "" ∧ rmGet r "organization" ≠ site
    · left; simp [validateRecord1, hf, horg]
    · by_cases hknown : smHasModel sm (rmGet r "cdm") = true
      · by_cases hempty : rmGet r "cdm-version" = ""
        · right
          refine ⟨hempty, ?_⟩
          simp only [validateRecord1, hf]
          rw [if_neg horg, findModelFill_known_empty r sm hknown hempty]
          rw [validateRecord1Tail_fst]
        · left
          simp only [validateRecord1, hf]
          rw [if_neg horg, findModelFill_known_ver r sm hknown hempty]
          rw [validateRecord1Tail_fst]
      · left
        simp only [validateRecord1, hf]
        rw [if_neg horg, findModelFill_unknown r sm (by simpa using hknown)]
        rw [validateRecord1Tail_fst]

/-- The record lists before and after Validate's first pass: same
length, and each output record relates to its input record by at most
the cdm-version fill. -/
theorem validatePass1_frame (site model mv dv : String) (sm : SModels) :
    ∀ rs : List RecordMap,
      (validatePass1 site model mv dv sm rs).1.length = rs.length ∧
      ∀ i : Nat,
        (validatePass1 site model mv dv sm rs).1.getD i []
            = rs.getD i [] ∨
          (rmGet (rs.getD i []) "cdm-version" = "" ∧
            (validatePass1 site model mv dv sm rs).1.getD i []
              = rmSet (rs.getD i []) "cdm-version"
                  (latestVersion sm (rmGet (rs.getD i []) "cdm"))) := by
  intro rs
  induction rs with
  | nil => exact ⟨rfl, fun i => Or.inl rfl⟩
  | cons a rs ih =>
    have hfst := validateRecord1_fst site model mv dv sm a
    cases hv : (validateRecord1 site model mv dv sm a).2 with
    | some e =>
      refine ⟨?_, ?_⟩
      · simp [validatePass1, hv]
      · intro i
        cases i with
        | zero => simpa [validatePass1, hv] using hfst
        | succ n => left; simp [validatePass1, hv]
    | none =>
      refine ⟨?_, ?_⟩
      · simp [validatePass1, hv, ih.1]
      · intro i
        cases i with
        | zero => simpa [validatePass1, hv] using hfst
        | succ n =>
          have := ih.2 n
          simpa [validatePass1, hv] using this

/-- The records Validate leaves on the object are those of the first
pass (the checksum pass reads but never writes them). -/
theorem validate_records (d : DataDirectory) (fs : String → Option (List Nat)) :
    (validate d fs).2.1.RecordMaps
      = (validatePass1 d.Site d.Model d.ModelVersion d.DataVersion
          d.serviceModels d.RecordMaps).1 := by
  unfold validate
  cases hp : (validatePass1 d.Site d.Model d.ModelVersion d.DataVersion
      d.serviceModels d.RecordMaps).2 <;> simp [hp]

/-- C2: when the DirectoryContext declares a non-empty site, a record
whose organization differs from it is rejected by its per-record
checks, and Validate cannot succeed while such a record is present;
a record whose organization equals the site is never rejected by the
organization check. -/
theorem c2_organization_check (d : DataDirectory)
    (fs : String → Option (List Nat)) (r : RecordMap) :
    (d.Site ≠ "" → rmGet r "organization" ≠ d.Site →
      (validateRecord1 d.Site d.Model d.ModelVersion d.DataVersion
        d.serviceModels r).2 ≠ none) ∧
    (d.Site ≠ "" → rmGet r "organization" ≠ d.Site → r ∈ d.RecordMaps →
      (validate d fs).1 ≠ .ok ()) ∧
    (rmGet r "organization" = d.Site →
      isOrgErr (validateRecord1 d.Site d.Model d.ModelVersion d.DataVersion
        d.serviceModels r).2 = false) := by
  refine ⟨?_, ?_, ?_⟩
  · intro hsite horg
    cases hf : findMissingValue r with
    | some f => simp [validateRecord1, hf]
    | none => simp [validateRecord1, hf, horg, hsite]
  · intro hsite horg hr hok
    have h1 : (validateRecord1 d.Site d.Model d.ModelVersion d.DataVersion
        d.serviceModels r).2 ≠ none := by
      cases hf : findMissingValue r with
      | some f => simp [validateRecord1, hf]
      | none => simp [validateRecord1, hf, horg, hsite]
    cases hp : (validatePass1 d.Site d.Model d.ModelVersion d.DataVersion
        d.serviceModels d.RecordMaps).2 with
    | some e => simp [validate, hp] at hok
    | none =>
      exact h1 (validatePass1_none_mem d.Site d.Model d.ModelVersion
        d.DataVersion d.serviceModels d.RecordMaps hp r hr)
  · intro horg
    cases hf : findMissingValue r with
    | some f => simp [validateRecord1, hf, isOrgErr]
    | none =>
      simp only [validateRecord1, hf]
      rw [if_neg (by simp [horg])]
      rw [validateRecord1Tail_notOrg]

/-- Witness for c2_organization_check: a mismatching record is
rejected and Validate fails; a matching record passes the organization
check. -/
theorem c2_organization_check_witness :
    (validateRecord1 "org" "" "" "" []
      [("organization", "foobar")]).2 ≠ none ∧
    (validate c2witDir (fun _ => none)).1 ≠ .ok () ∧
    isOrgErr (validateRecord1 "org" "" "" "" []
      [("organization", "org")]).2 = false := by
  have h := c2_organization_check c2witDir
    (fun _ => none) [("organization", "foobar")]
  have h2 := c2_organization_check c2witDir
    (fun _ => none) [("organization", "org")]
  exact ⟨h.1 (by decide) (by decide),
    h.2.1 (by decide) (by decide) (by decide),
    h2.2.2 (by decide)⟩

/-- C6: during Validate a processed record with a known cdm and an
empty cdm-version is filled, in place, with that model's latest
version (the last entry of its ascending version list); this fill is
the only mutation Validate performs on any record; and a processed
record with a non-empty cdm-version that is not among its model's
versions is rejected. -/
theorem c6_version_fill (d : DataDirectory)
    (fs : String → Option (List Nat)) (r : RecordMap) :
    (findMissingValue r = none →
      (d.Site ≠ "" → rmGet r "organization" = d.Site) →
      smHasModel d.serviceModels (rmGet r "cdm") = true →
      rmGet r "cdm-version" = "" →
      (validateRecord1 d.Site d.Model d.ModelVersion d.DataVersion
          d.serviceModels r).1
        = rmSet r "cdm-version"
            (latestVersion d.serviceModels (rmGet r "cdm"))) ∧
    ((validate d fs).2.1.RecordMaps.length = d.RecordMaps.length ∧
      ∀ i : Nat,
        (validate d fs).2.1.RecordMaps.getD i []
            = d.RecordMaps.getD i [] ∨
          (rmGet (d.RecordMaps.getD i []) "cdm-version" = "" ∧
            (validate d fs).2.1.RecordMaps.getD i []
              = rmSet (d.RecordMaps.getD i []) "cdm-version"
                  (latestVersion d.serviceModels
                    (rmGet (d.RecordMaps.getD i []) "cdm")))) ∧
    (smHasModel d.serviceModels (rmGet r "cdm") = true →
      rmGet r "cdm-version" ≠ "" →
      (smVersions d.serviceModels (rmGet r "cdm")).contains
          (rmGet r "cdm-version") = false →
      (validateRecord1 d.Site d.Model d.ModelVersion d.DataVersion
        d.serviceModels r).2 ≠ none) := by
  refine ⟨?_, ?_, ?_⟩
  · intro hf horg hknown hempty
    simp only [validateRecord1, hf]
    rw [if_neg (by intro hand; exact hand.2 (horg hand.1))]
    rw [findModelFill_known_empty r d.serviceModels hknown hempty]
    rw [validateRecord1Tail_fst]
  · have hframe := validatePass1_frame d.Site d.Model d.ModelVersion
      d.DataVersion d.serviceModels d.RecordMaps
    rw [validate_records]
    exact hframe
  · intro hknown hne hmem
    cases hf : findMissingValue r with
    | some f => simp [validateRecord1, hf]
    | none =>
      by_cases horg : d.Site ≠ "" ∧ rmGet r "organization" ≠ d.Site
      · simp [validateRecord1, hf, horg]
      · simp only [validateRecord1, hf]
        rw [if_neg horg]
        rw [findModelFill_known_ver r d.serviceModels hknown hne, hmem]
        simp [validateRecord1Tail]

/-- Witness for c6_version_fill: with a one-model catalog, an empty
cdm-version is filled with the latest version, and a bogus version is
rejected. -/
theorem c6_version_fill_witness :
    (validateRecord1 c6witDir.Site c6witDir.Model c6witDir.ModelVersion
        c6witDir.DataVersion c6witDir.serviceModels c6witRecA).1
      = rmSet c6witRecA "cdm-version" "2.1.0" ∧
    (validateRecord1 c6witDir.Site c6witDir.Model c6witDir.ModelVersion
        c6witDir.DataVersion c6witDir.serviceModels c6witRecB).2 ≠ none := by
  have h1 := c6_version_fill c6witDir (fun _ => none) c6witRecA
  have h2 := c6_version_fill c6witDir (fun _ => none) c6witRecB
  refine ⟨?_, h2.2.2 (by decide) (by decide) (by decide)⟩
  exact (h1.1 (by decide) (fun h => absurd (by decide) h)
    (by decide) (by decide)).trans (by decide)

/-! ## New / version resolution lemmas (C3) -/

/-- charListLe is reflexive. -/
theorem charListLe_refl : ∀ l : List Char, charListLe l l = true := by
  intro l
  induction l with
  | nil => rfl
  | cons a as ih => simp [charListLe, lt_irrefl, ih]

/-- charListLe is total. -/
theorem charListLe_total : ∀ l m : List Char,
    charListLe l m = true ∨ charListLe m l = true := by
  intro l
  induction l with
  | nil => intro m; left; rfl
  | cons a as ih =>
    intro m
    cases m with
    | nil => right; rfl
    | cons b bs =>
      rcases lt_trichotomy a b with h | h | h
      · left; simp [charListLe, h]
      · subst h
        rcases ih bs with h2 | h2
        · left; simp [charListLe, lt_irrefl, h2]
        · right; simp [charListLe, lt_irrefl, h2]
      · right; simp [charListLe, h]

/-- charListLe is transitive. -/
theorem charListLe_trans : ∀ l m n : List Char,
    charListLe l m = true → charListLe m n = true →
    charListLe l n = true := by
  intro l
  induction l with
  | nil => intro m n h1 h2; rfl
  | cons a as ih =>
    intro m n h1 h2
    cases m with
    | nil => simp [charListLe] at h1
    | cons b bs =>
      cases n with
      | nil => simp [charListLe] at h2
      | cons c cs =>
        by_cases hab : a < b
        · by_cases hbc : b < c
          · simp [charListLe, lt_trans hab hbc]
          · by_cases hcb : c < b
            · simp [charListLe, hbc, hcb] at h2
            · have hbceq : b = c := le_antisymm (not_lt.mp hcb) (not_lt.mp hbc)
              subst hbceq
              simp [charListLe, hab]
        · by_cases hba : b < a
          · simp [charListLe, hab, hba] at h1
          · have habeq : a = b := le_antisymm (not_lt.mp hba) (not_lt.mp hab)
            subst habeq
            simp only [charListLe, lt_irrefl, if_neg (lt_irrefl a)] at h1
            simp only [if_false] at h1
            by_cases hac : a < c
            · simp [charListLe, hac]
            · by_cases hca : c < a
              · simp [charListLe, hac, hca] at h2
              · have haceq : a = c := le_antisymm (not_lt.mp hca) (not_lt.mp hac)
                subst haceq
                simp only [charListLe, lt_irrefl, if_neg (lt_irrefl a),
                  if_false] at h2 ⊢
                exact ih bs cs h1 h2

instance : IsTotal String (fun a b => strLeb a b = true) :=
  ⟨fun a b => charListLe_total a.data b.data⟩

instance : IsTrans String (fun a b => strLeb a b = true) :=
  ⟨fun a b c => charListLe_trans a.data b.data c.data⟩

/-- The last element with default is a member of a nonempty list. -/
theorem getLastD_cons_mem : ∀ (l : List String) (a : String),
    l.getLastD a ∈ a :: l := by
  intro l
  induction l with
  | nil => intro a; simp [List.getLastD]
  | cons b bs ih =>
    intro a
    rw [List.getLastD_cons]
    rcases List.mem_cons.mp (ih b) with h | h
    · rw [h]; exact List.mem_cons_of_mem a (List.mem_cons_self b bs)
    · exact List.mem_cons_of_mem a (List.mem_cons_of_mem b h)

/-- In a list sorted ascending by strLeb, every element is below the
last one. -/
theorem sorted_getLastD_max :
    ∀ (l : List String) (a : String),
      List.Sorted (fun a b => strLeb a b = true) (a :: l) →
      ∀ x ∈ a :: l, strLeb x ((a :: l).getLastD "") = true := by
  intro l
  induction l with
  | nil =>
    intro a _ x hx
    rcases List.mem_cons.mp hx with h | h
    · subst h; exact charListLe_refl x.data
    · cases h
  | cons b bs ih =>
    intro a hs x hx
    have hlast : ((a :: b :: bs) : List String).getLastD ""
        = ((b :: bs) : List String).getLastD "" := by
      rw [List.getLastD_cons, List.getLastD_cons, List.getLastD_cons]
    rw [hlast]
    rcases List.mem_cons.mp hx with h | h
    · subst h
      have hmem : ((b :: bs) : List String).getLastD "" ∈ b :: bs := by
        rw [List.getLastD_cons]
        exact getLastD_cons_mem bs b
      exact List.rel_of_sorted_cons hs _ hmem
    · exact ih b hs.of_cons x h

/-- The search loop of New at a known model with no requested version:
found, and the resolved version is the last of the sorted list. -/
theorem newSearch_found_empty (t : String) :
    ∀ sm : SModels, smHasModel sm t = true →
      (newSearch t "" sm).2
        = (true, true, (sortStrings (smVersions sm t)).getLastD "") := by
  intro sm
  induction sm with
  | nil => intro h; simp [smHasModel] at h
  | cons p rest ih =>
    intro hhas
    obtain ⟨model, info⟩ := p
    by_cases hm : t = model
    · subst hm
      simp [newSearch, smVersions_cons_self]
    · simp only [newSearch, if_neg hm]
      rw [smVersions_cons_ne _ _ _ _ hm]
      exact ih (by rw [smHasModel_cons_ne _ _ _ _ hm] at hhas; exact hhas)

/-- The search loop of New at a known model with a requested version:
found, version resolved by membership in the sorted list. -/
theorem newSearch_found_ver (t tv : String) (htv : tv ≠ "") :
    ∀ sm : SModels, smHasModel sm t = true →
      (newSearch t tv sm).2
        = (true, (sortStrings (smVersions sm t)).contains tv, tv) := by
  intro sm
  induction sm with
  | nil => intro h; simp [smHasModel] at h
  | cons p rest ih =>
    intro hhas
    obtain ⟨model, info⟩ := p
    by_cases hm : t = model
    · subst hm
      simp [newSearch, htv, smVersions_cons_self]
    · simp only [newSearch, if_neg hm]
      rw [smVersions_cons_ne _ _ _ _ hm]
      exact ih (by rw [smHasModel_cons_ne _ _ _ _ hm] at hhas; exact hhas)

/-- The search loop of New at an unknown model: not found. -/
theorem newSearch_not_found (t tv : String) :
    ∀ sm : SModels, smHasModel sm t = false →
      (newSearch t tv sm).2 = (false, false, tv) := by
  intro sm
  induction sm with
  | nil => intro _; rfl
  | cons p rest ih =>
    intro hhas
    obtain ⟨model, info⟩ := p
    by_cases hm : t = model
    · exfalso
      subst hm
      simp [smHasModel, lookup_cons_self] at hhas
    · simp only [newSearch, if_neg hm]
      exact ih (by rw [smHasModel_cons_ne _ _ _ _ hm] at hhas; exact hhas)

/-- C3 counterexample: with versions 1.9.0 and 1.10.0 in the catalog,
New with an empty explicit version resolves 1.9.0 (the byte-wise
greatest), not the semantically greatest entry 1.10.0 — the claim as
stated fails at this input. -/
theorem c3_semver_cex :
    ((new c3cexCfg c3cexCat).toOption.map (fun d => d.ModelVersion))
      = some "1.9.0" ∧
    semverGreatest (smVersions (buildServiceModels c3cexCat)
      (lowerStr c3cexCfg.Model)) = "1.10.0" ∧
    ("1.9.0" : String) ≠ "1.10.0" :=
  ⟨by decide, by decide, by decide⟩

/-- C3 amended: for a known model, New with an empty explicit version
resolves the byte-wise lexicographically greatest entry of the model's
version list (the last after ascending string sort); resolution fails
with the not-found error when the model is absent, and when an
explicitly given version is absent from the model's versions. -/
theorem c3_resolve_latest (cfg : Config) (cModels : List ClientModel)
    (hpath : cfg.DataDirPath ≠ "") (hmodel : lowerStr cfg.Model ≠ "") :
    (smHasModel (buildServiceModels cModels) (lowerStr cfg.Model) = true →
      lowerStr cfg.ModelVersion = "" →
      smVersions (buildServiceModels cModels) (lowerStr cfg.Model) ≠ [] →
      ∃ d, new cfg cModels = .ok d ∧
        d.ModelVersion
          ∈ smVersions (buildServiceModels cModels) (lowerStr cfg.Model) ∧
        ∀ v ∈ smVersions (buildServiceModels cModels) (lowerStr cfg.Model),
          strLeb v d.ModelVersion = true) ∧
    (smHasModel (buildServiceModels cModels) (lowerStr cfg.Model) = false →
      new cfg cModels = .error (.modelNotFound (lowerStr cfg.Model)
        (lowerStr cfg.ModelVersion))) ∧
    (smHasModel (buildServiceModels cModels) (lowerStr cfg.Model) = true →
      lowerStr cfg.ModelVersion ≠ "" →
      lowerStr cfg.ModelVersion
          ∉ smVersions (buildServiceModels cModels) (lowerStr cfg.Model) →
      new cfg cModels = .error (.modelNotFound (lowerStr cfg.Model)
        (lowerStr cfg.ModelVersion))) := by
  refine ⟨?_, ?_, ?_⟩
  · intro hhas hempty hvs
    have hs := newSearch_found_empty (lowerStr cfg.Model)
      (buildServiceModels cModels) hhas
    have hperm : List.Perm
        (sortStrings (smVersions (buildServiceModels cModels)
          (lowerStr cfg.Model)))
        (smVersions (buildServiceModels cModels) (lowerStr cfg.Model)) :=
      List.perm_insertionSort _ _
    have hsorted : List.Sorted (fun a b => strLeb a b = true)
        (sortStrings (smVersions (buildServiceModels cModels)
          (lowerStr cfg.Model))) :=
      List.sorted_insertionSort _ _
    have hne2 : sortStrings (smVersions (buildServiceModels cModels)
        (lowerStr cfg.Model)) ≠ [] := by
      intro h
      rw [h] at hperm
      exact hvs hperm.symm.eq_nil
    obtain ⟨x, xs, hxx⟩ := List.exists_cons_of_ne_nil hne2
    simp only [new, if_neg hpath]
    rw [if_neg hmodel, hempty, hs]
    rw [if_pos (by exact ⟨rfl, rfl⟩)]
    refine ⟨_, rfl, ?_, ?_⟩
    · dsimp only
      rw [hxx, List.getLastD_cons]
      apply hperm.mem_iff.mp
      rw [hxx]
      exact getLastD_cons_mem xs x
    · intro v hv
      dsimp only
      have hv2 : v ∈ sortStrings (smVersions (buildServiceModels cModels)
          (lowerStr cfg.Model)) := hperm.mem_iff.mpr hv
      have hsorted2 : List.Sorted (fun a b => strLeb a b = true) (x :: xs) := by
        rw [← hxx]; exact hsorted
      have hv3 : v ∈ x :: xs := by rw [← hxx]; exact hv2
      rw [hxx]
      exact sorted_getLastD_max xs x hsorted2 v hv3
  · intro hhas
    have hs := newSearch_not_found (lowerStr cfg.Model)
      (lowerStr cfg.ModelVersion) (buildServiceModels cModels) hhas
    simp only [new, if_neg hpath]
    rw [if_neg hmodel, hs]
    rw [if_neg (by simp)]
  · intro hhas hne hnm
    have hs := newSearch_found_ver (lowerStr cfg.Model)
      (lowerStr cfg.ModelVersion) hne (buildServiceModels cModels) hhas
    have hperm : List.Perm
        (sortStrings (smVersions (buildServiceModels cModels)
          (lowerStr cfg.Model)))
        (smVersions (buildServiceModels cModels) (lowerStr cfg.Model)) :=
      List.perm_insertionSort _ _
    have hcont : (sortStrings (smVersions (buildServiceModels cModels)
        (lowerStr cfg.Model))).contains (lowerStr cfg.ModelVersion) = false := by
      cases hc : (sortStrings (smVersions (buildServiceModels cModels)
          (lowerStr cfg.Model))).contains (lowerStr cfg.ModelVersion) with
      | false => rfl
      | true =>
        exfalso
        apply hnm
        apply hperm.mem_iff.mp
        exact List.elem_iff.mp hc
    simp only [new, if_neg hpath]
    rw [if_neg hmodel, hs, hcont]
    rw [if_neg (by simp)]

/-- Witness for c3_resolve_latest: concrete catalogs exercising the
three branches. -/
theorem c3_resolve_latest_witness :
    (∃ d, new c3cexCfg c3cexCat = .ok d ∧
      d.ModelVersion
        ∈ smVersions (buildServiceModels c3cexCat) (lowerStr c3cexCfg.Model) ∧
      ∀ v ∈ smVersions (buildServiceModels c3cexCat) (lowerStr c3cexCfg.Model),
        strLeb v d.ModelVersion = true) ∧
    new c3cexCfgB c3cexCat
      = .error (.modelNotFound (lowerStr c3cexCfgB.Model)
          (lowerStr c3cexCfgB.ModelVersion)) ∧
    new c3cexCfgC c3cexCat
      = .error (.modelNotFound (lowerStr c3cexCfgC.Model)
          (lowerStr c3cexCfgC.ModelVersion)) := by
  refine ⟨?_, ?_, ?_⟩
  · exact (c3_resolve_latest c3cexCfg c3cexCat (by decide) (by decide)).1
      (by decide) (by decide) (by decide)
  · exact (c3_resolve_latest c3cexCfgB c3cexCat (by decide) (by decide)).2.1
      (by decide)
  · exact (c3_resolve_latest c3cexCfgC c3cexCat (by decide) (by decide)).2.2
      (by decide) (by decide) (by decide)

/-- Every ReadMetadata call leaves the records at old-batch-append. -/
theorem readMetadata_append (text : String) :
    ∀ d : DataDirectory,
      (readMetadata d text).2.RecordMaps = d.RecordMaps ++ parsedBatch text := by
  intro d
  cases hcs : csvScan text with
  | mk rows err =>
    cases rows with
    | nil => simp [readMetadata, parsedBatch, hcs]
    | cons hs rest =>
      cases hch : (checkHeaderVals hs).2 with
      | some e => simp [readMetadata, parsedBatch, hcs, hch]
      | none =>
        cases hcr : checkRequired (checkHeaderVals hs).1 with
        | some e => simp [readMetadata, parsedBatch, hcs, hch, hcr]
        | none => simp [readMetadata, parsedBatch, hcs, hch, hcr]

/-- C10: ReadMetadata appends the newly parsed records (a function of
the text alone) after the records already stored, leaving every
pre-existing record unchanged; reading the same text twice therefore
stores the batch twice. -/
theorem c10_read_appends (d : DataDirectory) (text : String) :
    (readMetadata d text).2.RecordMaps = d.RecordMaps ++ parsedBatch text ∧
    (readMetadata d text).2.RecordMaps.take d.RecordMaps.length
      = d.RecordMaps ∧
    (readMetadata (readMetadata d text).2 text).2.RecordMaps
      = d.RecordMaps ++ parsedBatch text ++ parsedBatch text := by
  refine ⟨readMetadata_append text d, ?_, ?_⟩
  · rw [readMetadata_append text d, List.take_left]
  · rw [readMetadata_append text _, readMetadata_append text d,
      List.append_assoc]

/-! ## Header check lemmas (C5) -/

/-- When every lowered header value is canonical, the first header
loop lowers the header and reports no error. -/
theorem checkHeaderVals_ok : ∀ hs : List String,
    (∀ x ∈ hs, lowerStr x ∈ canonicalHeader) →
    checkHeaderVals hs = (hs.map lowerStr, none) := by
  intro hs
  induction hs with
  | nil => intro _; rfl
  | cons h t ih =>
    intro hall
    have hh := hall h (List.mem_cons_self h t)
    simp only [checkHeaderVals, if_pos hh, List.map]
    rw [ih (fun x hx => hall x (List.mem_cons_of_mem h hx))]

/-- When some lowered header value is not canonical, the first header
loop reports an unexpected-header error. -/
theorem checkHeaderVals_bad : ∀ hs : List String,
    (∃ x ∈ hs, lowerStr x ∉ canonicalHeader) →
    ∃ s, (checkHeaderVals hs).2 = some (.unexpectedHeader s) := by
  intro hs
  induction hs with
  | nil => intro h; simp at h
  | cons h t ih =>
    intro hex
    by_cases hh : lowerStr h ∈ canonicalHeader
    · have : ∃ x ∈ t, lowerStr x ∉ canonicalHeader := by
        rcases hex with ⟨x, hx, hnx⟩
        rcases List.mem_cons.mp hx with h1 | h1
        · exact absurd (h1 ▸ hh) hnx
        · exact ⟨x, h1, hnx⟩
      obtain ⟨s, hs2⟩ := ih this
      refine ⟨s, ?_⟩
      simp only [checkHeaderVals, if_pos hh]
      exact hs2
    · exact ⟨h, by simp only [checkHeaderVals, if_neg hh]⟩

/-- The required-header loop accepts exactly when every required
field is present. -/
theorem checkRequired_none (hs : List String) :
    checkRequired hs = none ↔ ∀ rq ∈ requiredFields, rq ∈ hs := by
  constructor
  · intro h rq hrq
    unfold checkRequired at h
    cases hf : requiredFields.find? (fun rq => !(hs.contains rq)) with
    | some x => rw [hf] at h; simp at h
    | none =>
      have := List.find?_eq_none.mp hf rq hrq
      simp only [Bool.not_eq_true', Bool.not_eq_false] at this
      exact List.elem_iff.mp this
  · intro hall
    unfold checkRequired
    cases hf : requiredFields.find? (fun rq => !(hs.contains rq)) with
    | none => rfl
    | some x =>
      exfalso
      have hmem := List.mem_of_find?_eq_some hf
      have hpred := List.find?_some hf
      simp only [Bool.not_eq_true', Bool.not_eq_false] at hpred
      rw [show hs.contains x = true from List.elem_iff.mpr (hall x hmem)] at hpred
      simp at hpred

/-- When the required-header loop rejects, it names a missing header. -/
theorem checkRequired_some (hs : List String) :
    (∃ rq ∈ requiredFields, rq ∉ hs) →
    ∃ rq, checkRequired hs = some (.missingHeader rq) := by
  intro hex
  unfold checkRequired
  cases hf : requiredFields.find? (fun rq => !(hs.contains rq)) with
  | some x => exact ⟨x, rfl⟩
  | none =>
    exfalso
    rcases hex with ⟨rq, hrq, hnot⟩
    have := List.find?_eq_none.mp hf rq hrq
    simp only [Bool.not_eq_true', Bool.not_eq_false] at this
    exact hnot (List.elem_iff.mp this)

/-- The record loop returns no error or a csv error, never a schema
error. -/
theorem readRecords_not_schema (hs : List String) (se : Option CsvErr) :
    ∀ (rows : List (List String)) (n : Nat),
      (readRecords hs se rows n).2 = none ∨
        ∃ e, (readRecords hs se rows n).2 = some (.csv e) := by
  intro rows
  induction rows with
  | nil =>
    intro n
    cases se with
    | none => left; rfl
    | some e => right; exact ⟨e, rfl⟩
  | cons row rest ih =>
    intro n
    by_cases hlen : row.length = hs.length
    · simp only [readRecords, if_pos hlen]
      exact ih (n + 1)
    · right
      exact ⟨.fieldCount, by simp only [readRecords, if_neg hlen]⟩

/-- C5: for every input whose header row reads successfully, the parse
fails with a schema error exactly when the lower-cased header row
contains a token outside the canonical eight or lacks one of the six
required fields; otherwise the header check passes (any remaining
failure is a csv format error, not a schema error). -/
theorem c5_schema_check (text : String) (d : DataDirectory)
    (hs : List String) (rows : List (List String)) (e? : Option CsvErr)
    (hscan : csvScan text = (hs :: rows, e?)) :
    isSchemaError (readMetadata d text).1 = true ↔
      ((∃ x ∈ hs, lowerStr x ∉ canonicalHeader) ∨
        (∃ rq ∈ requiredFields, rq ∉ hs.map lowerStr)) := by
  by_cases hok : ∀ x ∈ hs, lowerStr x ∈ canonicalHeader
  · have hch := checkHeaderVals_ok hs hok
    by_cases hreq : ∀ rq ∈ requiredFields, rq ∈ hs.map lowerStr
    · have hcr : checkRequired (hs.map lowerStr) = none :=
        (checkRequired_none (hs.map lowerStr)).mpr hreq
      constructor
      · intro habs
        exfalso
        rcases readRecords_not_schema (hs.map lowerStr) e? rows 1 with h3 | ⟨e, h3⟩ <;>
          simp [readMetadata, hscan, hch, hcr, h3, isSchemaError] at habs
      · intro hrhs
        exfalso
        rcases hrhs with ⟨x, hx, hnx⟩ | ⟨rq, hrq, hnrq⟩
        · exact hnx (hok x hx)
        · exact hnrq (hreq rq hrq)
    · obtain ⟨rq, hcr⟩ := checkRequired_some (hs.map lowerStr)
        (by push_neg at hreq; exact hreq)
      constructor
      · intro _
        right
        push_neg at hreq
        rcases hreq with ⟨rq2, hrq2, hnrq2⟩
        exact ⟨rq2, hrq2, hnrq2⟩
      · intro _
        simp [readMetadata, hscan, hch, hcr, isSchemaError]
  · obtain ⟨s, hch2⟩ := checkHeaderVals_bad hs (by push_neg at hok; exact hok)
    constructor
    · intro _
      left
      push_neg at hok
      exact hok
    · intro _
      simp [readMetadata, hscan, hch2, isSchemaError]

/-- Witness for c5_schema_check at concrete inputs: an unknown header
token is a schema error. -/
theorem c5_schema_check_witness :
    isSchemaError (readMetadata {} "foo\nbar\n").1 = true := by
  have h := c5_schema_check "foo\nbar\n" {} ["foo"] [["bar"]] none (by decide)
  exact h.mpr (Or.inl ⟨"foo", by decide, by decide⟩)

/-! ## Two-pass structure lemmas (C7) -/

/-- The checksum pass verifies files in record order: its event list
is a prefix of the records' filenames, and on success it is all of
them. -/
theorem validatePass2_events (dp : String) (fs : String → Option (List Nat)) :
    ∀ rs : List RecordMap,
      ((validatePass2 dp fs rs).1 = none →
        (validatePass2 dp fs rs).2 = rs.map (fun r => rmGet r "filename")) ∧
      ∃ k, (validatePass2 dp fs rs).2
        = (rs.map (fun r => rmGet r "filename")).take k := by
  intro rs
  induction rs with
  | nil => exact ⟨fun _ => rfl, 0, rfl⟩
  | cons r rest ih =>
    cases hf : fs (joinPath dp (rmGet r "filename")) with
    | none =>
      refine ⟨?_, 0, ?_⟩
      · intro h
        simp [validatePass2, hf] at h
      · simp [validatePass2, hf]
    | some content =>
      by_cases hsum : rmGet r "checksum" = checksumOf content
      · refine ⟨?_, ?_⟩
        · intro h
          simp only [validatePass2, hf, if_pos hsum] at h ⊢
          rw [ih.1 h]
          rfl
        · obtain ⟨k, hk⟩ := ih.2
          refine ⟨k + 1, ?_⟩
          simp only [validatePass2, hf, if_pos hsum, List.map, List.take]
          rw [hk]
      · refine ⟨?_, 1, ?_⟩
        · intro h
          simp [validatePass2, hf, if_neg hsum] at h
        · simp [validatePass2, hf, if_neg hsum]

/-- The first pass rejects with the error of the first record that
fails its per-record checks: every record before it passes. -/
theorem validatePass1_first_error (site model mv dv : String) (sm : SModels) :
    ∀ (rs : List RecordMap) (e : GoErr),
      (validatePass1 site model mv dv sm rs).2 = some e →
      ∃ i, i < rs.length ∧
        (validateRecord1 site model mv dv sm (rs.getD i [])).2 = some e ∧
        ∀ j < i, (validateRecord1 site model mv dv sm (rs.getD j [])).2 = none := by
  intro rs
  induction rs with
  | nil => intro e h; simp [validatePass1] at h
  | cons a rest ih =>
    intro e h
    cases hv : (validateRecord1 site model mv dv sm a).2 with
    | some e0 =>
      simp only [validatePass1, hv] at h
      refine ⟨0, by simp, ?_, ?_⟩
      · simpa [hv] using h
      · intro j hj; cases hj
    | none =>
      simp only [validatePass1, hv] at h
      obtain ⟨i, hi, hie, hprev⟩ := ih e h
      refine ⟨i + 1, by simpa using hi, ?_, ?_⟩
      · simpa using hie
      · intro j hj
        cases j with
        | zero => exact hv
        | succ j2 =>
          have : j2 < i := by omega
          simpa using hprev j2 this

/-- C7: Validate verifies no checksum before every record has passed
all non-checksum checks; the checks run as two full passes in record
order: a first-pass rejection is returned as the error of the first
failing record, with no checksum event; checksum events form a prefix
of the (first-pass) records' filenames in order, all of them when
Validate succeeds; and the result is a single first error, never an
aggregate of several failures. -/
theorem c7_two_pass (d : DataDirectory) (fs : String → Option (List Nat)) :
    ((validate d fs).2.2 ≠ [] →
      (validatePass1 d.Site d.Model d.ModelVersion d.DataVersion
        d.serviceModels d.RecordMaps).2 = none) ∧
    (∀ e, (validatePass1 d.Site d.Model d.ModelVersion d.DataVersion
        d.serviceModels d.RecordMaps).2 = some e →
      (validate d fs).1 = .error e ∧ (validate d fs).2.2 = [] ∧
      ∃ i, i < d.RecordMaps.length ∧
        (validateRecord1 d.Site d.Model d.ModelVersion d.DataVersion
          d.serviceModels (d.RecordMaps.getD i [])).2 = some e ∧
        ∀ j < i, (validateRecord1 d.Site d.Model d.ModelVersion d.DataVersion
          d.serviceModels (d.RecordMaps.getD j [])).2 = none) ∧
    (∃ k, (validate d fs).2.2
      = ((validatePass1 d.Site d.Model d.ModelVersion d.DataVersion
          d.serviceModels d.RecordMaps).1.map
            (fun r => rmGet r "filename")).take k) ∧
    ((validate d fs).1 = .ok () →
      (validate d fs).2.2
        = (validatePass1 d.Site d.Model d.ModelVersion d.DataVersion
            d.serviceModels d.RecordMaps).1.map (fun r => rmGet r "filename")) := by
  refine ⟨?_, ?_, ?_, ?_⟩
  · intro hne
    cases hp : (validatePass1 d.Site d.Model d.ModelVersion d.DataVersion
        d.serviceModels d.RecordMaps).2 with
    | none => rfl
    | some e =>
      exfalso
      apply hne
      simp [validate, hp]
  · intro e hp
    refine ⟨by simp [validate, hp], by simp [validate, hp], ?_⟩
    exact validatePass1_first_error d.Site d.Model d.ModelVersion
      d.DataVersion d.serviceModels d.RecordMaps e hp
  · cases hp : (validatePass1 d.Site d.Model d.ModelVersion d.DataVersion
        d.serviceModels d.RecordMaps).2 with
    | some e => exact ⟨0, by simp [validate, hp]⟩
    | none =>
      obtain ⟨k, hk⟩ := (validatePass2_events d.DirPath fs
        (validatePass1 d.Site d.Model d.ModelVersion d.DataVersion
          d.serviceModels d.RecordMaps).1).2
      refine ⟨k, ?_⟩
      simp only [validate, hp]
      exact hk
  · intro hok
    cases hp : (validatePass1 d.Site d.Model d.ModelVersion d.DataVersion
        d.serviceModels d.RecordMaps).2 with
    | some e => simp [validate, hp] at hok
    | none =>
      cases h2 : (validatePass2 d.DirPath fs
          (validatePass1 d.Site d.Model d.ModelVersion d.DataVersion
            d.serviceModels d.RecordMaps).1).1 with
      | some e => simp [validate, hp, h2] at hok
      | none =>
        have := (validatePass2_events d.DirPath fs
          (validatePass1 d.Site d.Model d.ModelVersion d.DataVersion
            d.serviceModels d.RecordMaps).1).1 h2
        simp only [validate, hp]
        exact this

/-- Witness for c7_two_pass at a concrete object: a record failing a
non-checksum check aborts with no checksum event. -/
theorem c7_two_pass_witness :
    (validate c2witDir (fun _ => none)).1
        = .error (.missingValue "" "filename") ∧
      (validate c2witDir (fun _ => none)).2.2 = [] := by
  have h := (c7_two_pass c2witDir (fun _ => none)).2.1
    (.missingValue "" "filename") (by decide)
  exact ⟨h.1, h.2.1⟩

/-! ## Directory scan lemmas (C8) -/

/-- populateRecord skips a non-data entry unchanged. -/
theorem populateRecord_skip (collect : String → List String → String)
    (d : DataDirectory) (e : WalkEntry) (hdf : isDataFile e = false) :
    populateRecord collect d e = .ok d := by
  have hcond : e.isDir = true ∨ goExt e.relPath ≠ ".csv" ∨
      e.relPath = "metadata.csv" := by
    simp only [isDataFile, decide_eq_false_iff_not] at hdf
    by_cases h1 : e.isDir = true
    · exact Or.inl h1
    · by_cases h2 : goExt e.relPath = ".csv"
      · by_cases h3 : e.relPath = "metadata.csv"
        · exact Or.inr (Or.inr h3)
        · exact absurd ⟨h1, h2, h3⟩ hdf
      · exact Or.inr (Or.inl h2)
  rw [populateRecord, if_pos hcond]

/-- populateRecord on an unreadable data entry fails. -/
theorem populateRecord_unreadable (collect : String → List String → String)
    (d : DataDirectory) (e : WalkEntry) (hdf : isDataFile e = true)
    (hc : e.content = none) :
    populateRecord collect d e
      = .error (.fileOpen (joinPath d.DirPath e.relPath)) := by
  simp only [isDataFile, decide_eq_true_eq] at hdf
  have hcond : ¬(e.isDir = true ∨ goExt e.relPath ≠ ".csv" ∨
      e.relPath = "metadata.csv") := by
    push_neg
    exact ⟨hdf.1, hdf.2.1, hdf.2.2⟩
  rw [populateRecord, if_neg hcond, hc]

set_option maxHeartbeats 2000000 in
/-- populateRecord on a readable data entry appends one record whose
checksum is the hex SHA-256 digest of the content. -/
theorem populateRecord_data (collect : String → List String → String)
    (d : DataDirectory) (e : WalkEntry) (c : List Nat)
    (hdf : isDataFile e = true) (hc : e.content = some c)
    (hh : d.header = canonicalHeader) :
    ∃ rm, populateRecord collect d e
        = .ok { d with RecordMaps := d.RecordMaps ++ [rm] } ∧
      rmGet rm "checksum" = checksumOf c := by
  simp only [isDataFile, decide_eq_true_eq] at hdf
  have hcond : ¬(e.isDir = true ∨ goExt e.relPath ≠ ".csv" ∨
      e.relPath = "metadata.csv") := by
    push_neg
    exact ⟨hdf.1, hdf.2.1, hdf.2.2⟩
  rw [populateRecord, if_neg hcond, hc, hh]
  exact ⟨_, rfl, by rfl⟩

/-- A successful walk appends one record per data file, in order, with
each record's checksum the digest of that file's content; the header
is untouched. -/
theorem populateAll_spec (collect : String → List String → String) :
    ∀ (es : List WalkEntry) (d d2 : DataDirectory),
      d.header = canonicalHeader →
      populateAll collect d es = .ok d2 →
      d2.header = canonicalHeader ∧
      ∃ new, d2.RecordMaps = d.RecordMaps ++ new ∧
        new.length = (es.filter isDataFile).length ∧
        new.map (fun r => rmGet r "checksum") = dataChecksums es := by
  intro es
  induction es with
  | nil =>
    intro d d2 hh h
    have hd : d = d2 := by simpa [populateAll] using h
    subst hd
    exact ⟨hh, [], by simp, by simp, by simp [dataChecksums]⟩
  | cons e es ih =>
    intro d d2 hh h
    by_cases hdf : isDataFile e = true
    · cases hc : e.content with
      | none =>
        rw [populateAll, populateRecord_unreadable collect d e hdf hc] at h
        simp at h
      | some c =>
        obtain ⟨rm, heq, hsum⟩ := populateRecord_data collect d e c hdf hc hh
        rw [populateAll, heq] at h
        obtain ⟨hh2, new, hrec, hlen, hsums⟩ :=
          ih { d with RecordMaps := d.RecordMaps ++ [rm] } d2 hh h
        refine ⟨hh2, rm :: new, ?_, ?_, ?_⟩
        · rw [hrec]
          simp
        · simp [List.filter_cons, hdf, hlen]
        · simp only [List.map, hsums, dataChecksums, List.filter_cons, hdf,
            if_pos, hsum, hc]
          simp [dataChecksums]
    · have hdf2 : isDataFile e = false := by simpa using hdf
      rw [populateAll, populateRecord_skip collect d e hdf2] at h
      obtain ⟨hh2, new, hrec, hlen, hsums⟩ := ih d d2 hh h
      refine ⟨hh2, new, hrec, ?_, ?_⟩
      · simp [List.filter_cons, hdf2, hlen]
      · rw [hsums]
        simp [dataChecksums, List.filter_cons, hdf2]

/-- A successful walk implies every data file was readable. -/
theorem populateAll_ok_content (collect : String → List String → String) :
    ∀ (es : List WalkEntry) (d d2 : DataDirectory),
      populateAll collect d es = .ok d2 →
      ∀ e ∈ es, isDataFile e = true → e.content ≠ none := by
  intro es
  induction es with
  | nil => intro d d2 _ e he; cases he
  | cons e0 es ih =>
    intro d d2 h e he hdf
    rcases List.mem_cons.mp he with h1 | h1
    · subst h1
      intro hc
      rw [populateAll, populateRecord_unreadable collect d e hdf hc] at h
      simp at h
    · by_cases hdf0 : isDataFile e0 = true
      · cases hc0 : e0.content with
        | none =>
          rw [populateAll, populateRecord_unreadable collect d e0 hdf0 hc0] at h
          simp at h
        | some c =>
          rw [populateAll] at h
          cases hpr : populateRecord collect d e0 with
          | error er => rw [hpr] at h; simp at h
          | ok d3 =>
            rw [hpr] at h
            exact ih d3 d2 h e h1 hdf
      · have : isDataFile e0 = false := by simpa using hdf0
        rw [populateAll, populateRecord_skip collect d e0 this] at h
        exact ih d d2 h e h1 hdf

/-- When every data file is readable, the walk succeeds from any
state. -/
theorem populateAll_ok_of_content (collect : String → List String → String) :
    ∀ (es : List WalkEntry),
      (∀ e ∈ es, isDataFile e = true → e.content ≠ none) →
      ∀ d : DataDirectory, ∃ d2, populateAll collect d es = .ok d2 := by
  intro es
  induction es with
  | nil => intro _ d; exact ⟨d, rfl⟩
  | cons e es ih =>
    intro hcont d
    have hrest : ∀ x ∈ es, isDataFile x = true → x.content ≠ none :=
      fun x hx => hcont x (List.mem_cons_of_mem e hx)
    by_cases hdf : isDataFile e = true
    · cases hc : e.content with
      | none => exact absurd hc (hcont e (List.mem_cons_self e es) hdf)
      | some c =>
        cases hpr : populateRecord collect d e with
        | error er =>
          exfalso
          have hcond : ¬(e.isDir = true ∨ goExt e.relPath ≠ ".csv" ∨
              e.relPath = "metadata.csv") := by
            simp only [isDataFile, decide_eq_true_eq] at hdf
            push_neg
            exact ⟨hdf.1, hdf.2.1, hdf.2.2⟩
          rw [populateRecord, if_neg hcond, hc] at hpr
          simp at hpr
        | ok d3 =>
          obtain ⟨d2, h2⟩ := ih hrest d3
          exact ⟨d2, by rw [populateAll, hpr]; exact h2⟩
    · have hdf2 : isDataFile e = false := by simpa using hdf
      obtain ⟨d2, h2⟩ := ih hrest d
      exact ⟨d2, by rw [populateAll, populateRecord_skip collect d e hdf2]; exact h2⟩

/-- C8: a successful scan of a directory appends exactly one record
per data file (excluding the ledger file, directories and files
without the data extension), each record's checksum being the
hex-encoded SHA-256 digest of that file's full content; scanning the
unchanged entries again succeeds and appends records with the same
checksums — the scan is deterministic. -/
theorem c8_scan_records (collect : String → List String → String)
    (d : DataDirectory) (es : List WalkEntry) (d2 : DataDirectory)
    (hh : d.header = canonicalHeader)
    (h : populateAll collect d es = .ok d2) :
    (∃ new, d2.RecordMaps = d.RecordMaps ++ new ∧
      new.length = (es.filter isDataFile).length ∧
      new.map (fun r => rmGet r "checksum") = dataChecksums es) ∧
    ∃ d3, populateAll collect d2 es = .ok d3 ∧
      ∃ new2, d3.RecordMaps = d2.RecordMaps ++ new2 ∧
        new2.length = (es.filter isDataFile).length ∧
        new2.map (fun r => rmGet r "checksum") = dataChecksums es := by
  have hmain := populateAll_spec collect es d d2 hh h
  refine ⟨hmain.2, ?_⟩
  have hcont := populateAll_ok_content collect es d d2 h
  obtain ⟨d3, h3⟩ := populateAll_ok_of_content collect es hcont d2
  exact ⟨d3, h3, (populateAll_spec collect es d2 d3 hmain.1 h3).2⟩

set_option maxRecDepth 4000 in
set_option maxHeartbeats 2000000 in
/-- Witness for c8_scan_records: a four-entry walk with one data file. -/
theorem c8_scan_records_witness :
    c8witDir.header = canonicalHeader ∧
    populateAll c8witCollect c8witDir c8witEntries = .ok c8witD2 ∧
    ∃ new, c8witD2.RecordMaps = c8witDir.RecordMaps ++ new ∧
      new.length = (c8witEntries.filter isDataFile).length ∧
      new.map (fun r => rmGet r "checksum") = dataChecksums c8witEntries := by
  refine ⟨by decide, by decide, ?_⟩
  exact (c8_scan_records c8witCollect c8witDir c8witEntries c8witD2
    (by decide) (by decide)).1

/-! ## Round-trip lemmas (C1) -/

/-- A string is its character list. -/
theorem strMk_data (s : String) : String.mk s.data = s := rfl

/-- Reading the head key. -/
theorem rmGet_cons_self (k v : String) (t : RecordMap) :
    rmGet ((k, v) :: t) k = v := by
  simp [rmGet, lookup_cons_self]

/-- Reading past a different head key. -/
theorem rmGet_cons_ne (k1 v1 : String) (t : RecordMap) (k2 : String)
    (h : k2 ≠ k1) : rmGet ((k1, v1) :: t) k2 = rmGet t k2 := by
  simp [rmGet, lookup_cons_ne _ _ _ _ h]

/-- Reading after a write: the written value at the written key,
everything else unchanged. -/
theorem rmGet_rmSet : ∀ (m : RecordMap) (k v k2 : String),
    rmGet (rmSet m k v) k2 = if k2 = k then v else rmGet m k2 := by
  intro m
  induction m with
  | nil =>
    intro k v k2
    by_cases h : k2 = k
    · subst h
      simp [rmSet, rmGet_cons_self]
    · simp [rmSet, h, rmGet_cons_ne _ _ _ _ h]
  | cons p t ih =>
    intro k v k2
    obtain ⟨k1, v1⟩ := p
    by_cases h1 : k1 = k
    · subst h1
      by_cases h2 : k2 = k1
      · subst h2
        simp [rmSet, rmGet_cons_self]
      · simp [rmSet, h2, rmGet_cons_ne _ _ _ _ h2]
    · by_cases h2 : k2 = k1
      · subst h2
        simp [rmSet, h1, rmGet_cons_self,
          show ¬ k2 = k from fun hh => h1 (hh ▸ rfl)]
      · simp [rmSet, h1, rmGet_cons_ne _ _ _ _ h2, ih k v k2]

/-- CRLF normalization does not change carriage-return-free text. -/
theorem normCRLF_id : ∀ l : List Char, '\r' ∉ l → normCRLF l = l := by
  intro l
  induction l with
  | nil => intro _; rfl
  | cons c cs ih =>
    intro h
    have hc : c ≠ '\r' := fun he => h (he ▸ List.mem_cons_self c cs)
    have hcs : '\r' ∉ cs := fun hm => h (List.mem_cons_of_mem c hm)
    rw [normCRLF.eq_3]
    · rw [ih hcs]
    · intro cs1 hceq hcseq
      exact hc hceq

/-- A clean value has no quote and no carriage return. -/
theorem cleanValue_spec (v : String) (h : cleanValue v = true) :
    '"' ∉ v.data ∧ '\r' ∉ v.data := by
  simp only [cleanValue, Bool.and_eq_true, Bool.not_eq_true'] at h
  constructor
  · intro hm
    rw [show v.data.contains '"' = true from List.elem_iff.mpr hm] at h
    simp at h
  · intro hm
    rw [show v.data.contains '\r' = true from List.elem_iff.mpr hm] at h
    simp at h

/-- Scanning a quoted field: the characters before the closing quote
are accumulated verbatim. -/
theorem scanQuoted (rest : List Char) (rc : List String) :
    ∀ (v cur : List Char), '"' ∉ v →
      csvScanAux .quoted cur rc (v ++ '"' :: rest)
        = csvScanAux .postQuote (cur ++ v) rc rest := by
  intro v
  induction v with
  | nil => intro cur _; simp [csvScanAux]
  | cons c v ih =>
    intro cur h
    have hc : c ≠ '"' := fun he => h (he ▸ List.mem_cons_self c v)
    have hv : '"' ∉ v := fun hm => h (List.mem_cons_of_mem c hm)
    simp only [List.cons_append, csvScanAux, if_neg hc, List.append_eq]
    rw [ih (cur ++ [c]) hv, List.append_assoc]
    rfl

/-- quoteLine is the opening quote followed by rowTail. -/
theorem quoteLine_eq : ∀ row : List String,
    quoteLine row = '"' :: rowTail row := by
  have hjoin : ∀ (f : String) (fs : List String),
      goJoin ['"', ',', '"'] (f :: fs) ++ ['"', '\n'] = rowTail (f :: fs) := by
    intro f fs
    induction fs generalizing f with
    | nil => rfl
    | cons f2 fs ih =>
      show (f.data ++ ['"', ',', '"'] ++ goJoin ['"', ',', '"'] (f2 :: fs))
          ++ ['"', '\n'] = f.data ++ '"' :: ',' :: '"' :: rowTail (f2 :: fs)
      rw [List.append_assoc, List.append_assoc, ← ih f2]
      rfl
  intro row
  cases row with
  | nil => rfl
  | cons f fs =>
    show '"' :: (goJoin ['"', ',', '"'] (f :: fs) ++ ['"', '\n'])
        = '"' :: rowTail (f :: fs)
    rw [hjoin f fs]

/-- Scanning a serialized row from inside its first quoted field: the
row's fields are recovered exactly, and scanning continues at the line
start. -/
theorem scanRow : ∀ (fs : List String) (f : String) (cur : List Char)
    (rc : List String) (rest : List Char),
    (∀ x ∈ f :: fs, cleanValue x = true) →
    csvScanAux .quoted cur rc (rowTail (f :: fs) ++ rest)
      = ((rc ++ (String.mk (cur ++ f.data) :: fs))
           :: (csvScanAux .lineStart [] [] rest).1,
         (csvScanAux .lineStart [] [] rest).2) := by
  intro fs
  induction fs with
  | nil =>
    intro f cur rc rest hclean
    have hf := cleanValue_spec f (hclean f (List.mem_cons_self f []))
    have hrt : rowTail [f] ++ rest = f.data ++ '"' :: ('\n' :: rest) := by
      show (f.data ++ ['"', '\n']) ++ rest = _
      rw [List.append_assoc]
      rfl
    rw [hrt, scanQuoted ('\n' :: rest) rc f.data cur hf.1]
    simp [csvScanAux]
  | cons f2 fs ih =>
    intro f cur rc rest hclean
    have hf := cleanValue_spec f (hclean f (List.mem_cons_self f (f2 :: fs)))
    have hclean2 : ∀ x ∈ f2 :: fs, cleanValue x = true :=
      fun x hx => hclean x (List.mem_cons_of_mem f hx)
    have hrt : rowTail (f :: f2 :: fs) ++ rest
        = f.data ++ '"' :: (',' :: '"' :: (rowTail (f2 :: fs) ++ rest)) := by
      show (f.data ++ '"' :: ',' :: '"' :: rowTail (f2 :: fs)) ++ rest = _
      rw [List.append_assoc]
      rfl
    rw [hrt, scanQuoted _ rc f.data cur hf.1]
    have hstep : csvScanAux .postQuote (cur ++ f.data) rc
        (',' :: '"' :: (rowTail (f2 :: fs) ++ rest))
        = csvScanAux .quoted [] (rc ++ [String.mk (cur ++ f.data)])
            (rowTail (f2 :: fs) ++ rest) := by
      simp [csvScanAux]
    rw [hstep, ih f2 [] (rc ++ [String.mk (cur ++ f.data)]) rest hclean2]
    rw [List.nil_append, strMk_data, List.append_assoc]
    rfl

/-- Scanning a serialized line recovers its row and continues. -/
theorem scanLine (row : List String) (rest : List Char)
    (hne : row ≠ []) (hclean : ∀ x ∈ row, cleanValue x = true) :
    csvScanAux .lineStart [] [] (quoteLine row ++ rest)
      = (row :: (csvScanAux .lineStart [] [] rest).1,
         (csvScanAux .lineStart [] [] rest).2) := by
  obtain ⟨f, fs, rfl⟩ := List.exists_cons_of_ne_nil hne
  rw [quoteLine_eq]
  have hstep : csvScanAux .lineStart [] []
      (('"' :: rowTail (f :: fs)) ++ rest)
      = csvScanAux .quoted [] [] (rowTail (f :: fs) ++ rest) := by
    simp [csvScanAux]
  rw [hstep, scanRow fs f [] [] rest hclean]
  rw [List.nil_append, List.nil_append, strMk_data]

/-- Scanning the serialized lines of a record set recovers the rows,
with no error. -/
theorem scanLines : ∀ rows : List (List String),
    (∀ row ∈ rows, row ≠ [] ∧ ∀ x ∈ row, cleanValue x = true) →
    csvScanAux .lineStart [] [] ((rows.map quoteLine).flatten)
      = (rows, none) := by
  intro rows
  induction rows with
  | nil => intro _; rfl
  | cons row rows ih =>
    intro hcl
    have h0 := hcl row (List.mem_cons_self row rows)
    rw [List.map_cons, List.flatten_cons, scanLine row _ h0.1 h0.2]
    rw [ih (fun r hr => hcl r (List.mem_cons_of_mem row hr))]

/-- No carriage return occurs in a serialized row of clean fields. -/
theorem cr_not_mem_rowTail : ∀ row : List String,
    (∀ x ∈ row, cleanValue x = true) → '\r' ∉ rowTail row := by
  intro row
  induction row with
  | nil => intro _ hm; simp [rowTail] at hm
  | cons f fs ih =>
    intro hcl hm
    have hf := (cleanValue_spec f (hcl f (List.mem_cons_self f fs))).2
    cases fs with
    | nil =>
      rcases List.mem_append.mp hm with h | h
      · exact hf h
      · simp at h
    | cons f2 fs2 =>
      rcases List.mem_append.mp hm with h | h
      · exact hf h
      · simp only [List.mem_cons] at h
        rcases h with h | h | h | h
        · exact absurd h (by decide)
        · exact absurd h (by decide)
        · exact absurd h (by decide)
        · exact ih (fun x hx => hcl x (List.mem_cons_of_mem f hx)) h

/-- No carriage return occurs in the serialized text of a clean
header and clean record values. -/
theorem cr_not_mem_write (hs : List String) (recs : List RecordMap)
    (hclh : ∀ x ∈ hs, cleanValue x = true)
    (hclr : ∀ r ∈ recs, ∀ f ∈ hs, cleanValue (rmGet r f) = true) :
    '\r' ∉ writeMetadataChars hs recs := by
  intro hm
  rcases List.mem_append.mp hm with h | h
  · rw [quoteLine_eq] at h
    simp only [List.mem_cons] at h
    rcases h with h | h
    · exact absurd h (by decide)
    · exact cr_not_mem_rowTail hs hclh h
  · obtain ⟨l, hl, hml⟩ := List.mem_flatten.mp h
    obtain ⟨r, hr, rfl⟩ := List.mem_map.mp hl
    rw [quoteLine_eq] at hml
    simp only [List.mem_cons] at hml
    rcases hml with hml | hml
    · exact absurd hml (by decide)
    apply cr_not_mem_rowTail (hs.map (rmGet r)) ?_ hml
    intro x hx
    obtain ⟨f, hf, rfl⟩ := List.mem_map.mp hx
    exact hclr r hr f hf

/-- Mapping lowerStr over a list it fixes is the identity. -/
theorem mapLowerId : ∀ l : List String,
    (∀ x ∈ l, lowerStr x = x) → l.map lowerStr = l := by
  intro l
  induction l with
  | nil => intro _; rfl
  | cons a t ih =>
    intro hall
    simp only [List.map_cons, hall a (List.mem_cons_self a t),
      ih (fun x hx => hall x (List.mem_cons_of_mem a hx))]

/-- A key absent from a record map reads as the empty string. -/
theorem rmGet_not_key : ∀ (r : RecordMap) (f : String),
    f ∉ r.map Prod.fst → rmGet r f = "" := by
  intro r
  induction r with
  | nil => intro f _; rfl
  | cons p t ih =>
    obtain ⟨k, v⟩ := p
    intro f h
    simp only [List.map_cons] at h
    have h1 : f ≠ k := fun he => h (he ▸ List.mem_cons_self k (t.map Prod.fst))
    have h2 : f ∉ t.map Prod.fst := fun hm => h (List.mem_cons_of_mem k hm)
    rw [rmGet_cons_ne k v t f h1]
    exact ih f h2

/-- Zipping a list with its own image. -/
theorem zip_self_map (g : String → String) : ∀ l : List String,
    l.zip (l.map g) = l.map (fun a => (a, g a)) := by
  intro l
  induction l with
  | nil => rfl
  | cons a t ih => simp only [List.map_cons, List.zip_cons_cons, ih]

/-- Reading a field out of the record-building fold. -/
theorem rmGet_buildFold (r : RecordMap) :
    ∀ (fields : List String) (m : RecordMap) (f : String),
    rmGet (List.foldl (fun mm p => rmSet mm p.1 (normalizeVal p.1 p.2)) m
        (fields.map (fun h => (h, rmGet r h)))) f
      = if f ∈ fields then normalizeVal f (rmGet r f) else rmGet m f := by
  intro fields
  induction fields with
  | nil => intro m f; simp
  | cons h t ih =>
    intro m f
    simp only [List.map_cons, List.foldl_cons]
    rw [ih (rmSet m h (normalizeVal h (rmGet r h))) f]
    by_cases hft : f ∈ t
    · rw [if_pos hft, if_pos (List.mem_cons_of_mem h hft)]
    · rw [if_neg hft, rmGet_rmSet]
      by_cases hfh : f = h
      · subst hfh
        rw [if_pos rfl, if_pos (List.mem_cons_self f t)]
      · rw [if_neg hfh, if_neg (by simp [List.mem_cons, hfh, hft])]

/-- A record rebuilt from its own serialized row agrees with the
original modulo the line field, when the non-preserved values are
already lower case and no value lives outside the header. -/
theorem buildRecordMap_roundtrip (hs : List String) (r : RecordMap) (n : Nat)
    (hlower : ∀ f ∈ hs, f ≠ "organization" → f ≠ "filename" → f ≠ "etl" →
      lowerStr (rmGet r f) = rmGet r f)
    (hdom : ∀ f, f ∉ hs → f ≠ "line" → rmGet r f = "") :
    eqModLine (buildRecordMap hs (hs.map (rmGet r)) n) r := by
  intro f hf
  unfold buildRecordMap
  rw [zip_self_map (rmGet r) hs, rmGet_rmSet, if_neg hf,
    rmGet_buildFold r hs [] f]
  by_cases hmem : f ∈ hs
  · rw [if_pos hmem]
    unfold normalizeVal
    by_cases hpres : f = "organization" ∨ f = "filename" ∨ f = "etl"
    · rw [if_pos hpres]
    · rw [if_neg hpres]
      push_neg at hpres
      exact hlower f hmem hpres.1 hpres.2.1 hpres.2.2
  · rw [if_neg hmem]
    show rmGet [] f = rmGet r f
    rw [hdom f hmem hf]
    rfl

/-- The record loop over the rows serialized from a record list
reproduces the records modulo the line field. -/
theorem readRecords_roundtrip (hs : List String) :
    ∀ (rs : List RecordMap) (n : Nat),
    (∀ r ∈ rs,
      (∀ f ∈ hs, f ≠ "organization" → f ≠ "filename" → f ≠ "etl" →
        lowerStr (rmGet r f) = rmGet r f) ∧
      (∀ f, f ∉ hs → f ≠ "line" → rmGet r f = "")) →
    (readRecords hs none (rs.map (fun r => hs.map (rmGet r))) n).2 = none ∧
    (readRecords hs none (rs.map (fun r => hs.map (rmGet r))) n).1.length
      = rs.length ∧
    ∀ i, eqModLine
      ((readRecords hs none (rs.map (fun r => hs.map (rmGet r))) n).1.getD i [])
      (rs.getD i []) := by
  intro rs
  induction rs with
  | nil =>
    intro n _
    refine ⟨rfl, rfl, ?_⟩
    intro i f _
    rfl
  | cons r rs ih =>
    intro n hall
    have hr := hall r (List.mem_cons_self r rs)
    have hlen : (hs.map (rmGet r)).length = hs.length := List.length_map _ _
    obtain ⟨ih1, ih2, ih3⟩ :=
      ih (n + 1) (fun x hx => hall x (List.mem_cons_of_mem r hx))
    simp only [List.map_cons, readRecords, if_pos hlen]
    refine ⟨ih1, ?_, ?_⟩
    · simp [ih2]
    · intro i
      cases i with
      | zero => simpa using buildRecordMap_roundtrip hs r (n + 1) hr.1 hr.2
      | succ i => simpa using ih3 i

/-- WriteMetadata as the quoted header line followed by the quoted
serialized rows. -/
theorem writeMetadataChars_eq (hs : List String) (recs : List RecordMap) :
    writeMetadataChars hs recs
      = quoteLine hs
        ++ ((recs.map (fun r => hs.map (rmGet r))).map quoteLine).flatten := by
  unfold writeMetadataChars
  congr 1
  induction recs with
  | nil => rfl
  | cons a t ih => simp only [List.map_cons, List.flatten_cons, ih]

/-- C1: parsing the text WriteMetadata produces does NOT always
reproduce the records modulo the line field: every value outside
organization, filename and etl is lower-cased on read. Here the table
value "Person" comes back as "person". -/
theorem c1_roundtrip_cex :
    rmGet (c1cexDir.RecordMaps.getD 0 []) "table" = "Person" ∧
    (readMetadata {} (writeMetadata c1cexDir)).1 = .ok () ∧
    rmGet ((readMetadata {} (writeMetadata c1cexDir)).2.RecordMaps.getD 0 [])
      "table" = "person" ∧
    ¬ eqModLine
      ((readMetadata {} (writeMetadata c1cexDir)).2.RecordMaps.getD 0 [])
      (c1cexDir.RecordMaps.getD 0 []) := by
  refine ⟨by decide, by decide, by decide, ?_⟩
  intro h
  exact absurd (h "table" (by decide)) (by decide)

/-- C1 (amended): WriteMetadata then ReadMetadata reproduces the records
field-for-field modulo the synthetic line field, provided the header is
canonical with all required fields, every serialized value is free of
double quotes and carriage returns, the values at the lower-cased
fields are already lower case, and no record holds a value outside the
header (other than line). -/
theorem c1_roundtrip (d : DataDirectory)
    (hcanon : ∀ x ∈ d.header, x ∈ canonicalHeader)
    (hreq : ∀ rq ∈ requiredFields, rq ∈ d.header)
    (hclean : ∀ r ∈ d.RecordMaps, ∀ f ∈ d.header, cleanValue (rmGet r f) = true)
    (hlower : ∀ r ∈ d.RecordMaps, ∀ f ∈ d.header, f ≠ "organization" →
      f ≠ "filename" → f ≠ "etl" → lowerStr (rmGet r f) = rmGet r f)
    (hdom : ∀ r ∈ d.RecordMaps, ∀ f, f ∉ d.header → f ≠ "line" →
      rmGet r f = "") :
    (readMetadata {} (writeMetadata d)).1 = .ok () ∧
    (readMetadata {} (writeMetadata d)).2.RecordMaps.length
      = d.RecordMaps.length ∧
    ∀ i, eqModLine
      ((readMetadata {} (writeMetadata d)).2.RecordMaps.getD i [])
      (d.RecordMaps.getD i []) := by
  have hfacts : ∀ x ∈ canonicalHeader, cleanValue x = true ∧ lowerStr x = x := by
    decide
  have hclh : ∀ x ∈ d.header, cleanValue x = true :=
    fun x hx => (hfacts x (hcanon x hx)).1
  have hne : d.header ≠ [] :=
    List.ne_nil_of_mem (hreq "organization" (by decide))
  have hrowsok : ∀ row ∈ d.RecordMaps.map (fun r => d.header.map (rmGet r)),
      row ≠ [] ∧ ∀ x ∈ row, cleanValue x = true := by
    intro row hrow
    obtain ⟨r, hr, rfl⟩ := List.mem_map.mp hrow
    constructor
    · intro hcon
      apply hne
      have hl := congrArg List.length hcon
      rw [List.length_map] at hl
      exact List.eq_nil_of_length_eq_zero hl
    · intro x hx
      obtain ⟨f, hf, rfl⟩ := List.mem_map.mp hx
      exact hclean r hr f hf
  have hnocr : '\r' ∉ writeMetadataChars d.header d.RecordMaps :=
    cr_not_mem_write d.header d.RecordMaps hclh hclean
  have hscan : csvScan (writeMetadata d)
      = (d.header :: d.RecordMaps.map (fun r => d.header.map (rmGet r)),
         none) := by
    show csvScanAux .lineStart [] []
        (normCRLF (writeMetadataChars d.header d.RecordMaps)) = _
    rw [normCRLF_id _ hnocr, writeMetadataChars_eq,
      scanLine d.header _ hne hclh, scanLines _ hrowsok]
  have h1 : checkHeaderVals d.header = (d.header, none) := by
    rw [checkHeaderVals_ok d.header (fun x hx => by
      rw [(hfacts x (hcanon x hx)).2]; exact hcanon x hx)]
    rw [mapLowerId d.header (fun x hx => (hfacts x (hcanon x hx)).2)]
  have h2 : checkRequired d.header = none := (checkRequired_none d.header).mpr hreq
  obtain ⟨r1, r2, r3⟩ := readRecords_roundtrip d.header d.RecordMaps 1
    (fun r hr => ⟨hlower r hr, hdom r hr⟩)
  simp only [readMetadata, hscan, h1, h2, r1, List.nil_append]
  exact ⟨trivial, r2, r3⟩

/-- C1 witness: the amended round-trip at a concrete ledger. -/
theorem c1_roundtrip_witness :
    (readMetadata {} (writeMetadata c1witDir)).1 = .ok () ∧
    (readMetadata {} (writeMetadata c1witDir)).2.RecordMaps.length
      = c1witDir.RecordMaps.length ∧
    rmGet ((readMetadata {} (writeMetadata c1witDir)).2.RecordMaps.getD 0 [])
        "organization"
      = rmGet (c1witDir.RecordMaps.getD 0 []) "organization" := by
  have h := c1_roundtrip c1witDir (by decide) (by decide) (by decide)
    (by decide)
    (by
      intro r hr f hf _
      refine rmGet_not_key r f (fun hk => hf ?_)
      have hall : ∀ rr ∈ c1witDir.RecordMaps,
          ∀ k ∈ rr.map Prod.fst, k ∈ c1witDir.header := by decide
      exact hall r hr f hk)
  exact ⟨h.1, h.2.1, h.2.2 0 "organization" (by decide)⟩

end DataDir